import Mathlib

/-!
Verification of the plugalyzer-wrapper pipeline/catalog core.

The JavaScript sources are shallowly embedded: JS strings become `List Char`
(`JSStr`), nullable values become `Option`, thrown exceptions become
`Except Unit`, the SQLite tables become Lean lists of row structures, and the
external `Plugalyzer` process is abstracted by a success oracle / report
argument.  Every definition mirrors the corresponding function of the source
(latest revision of each file).
-/

set_option maxHeartbeats 1000000

namespace Plugalyzer

/-- JS strings are modelled as lists of characters. -/
abbrev JSStr := List Char

/-- Conversion from Lean string literals to the model's strings. -/
def js (s : String) : JSStr := s.data

/-- `String.prototype.trim`: drop whitespace from both ends. -/
def trimStr (l : JSStr) : JSStr :=
  ((l.dropWhile Char.isWhitespace).reverse.dropWhile Char.isWhitespace).reverse

/-- JS `str.split(sep)` for a one-character separator: all fields, empty ones
included (`"".split(c) = [""]`, `":x".split(":") = ["", "x"]`). -/
def jsSplit (c : Char) : JSStr → List JSStr
  | [] => [[]]
  | x :: xs =>
    let r := jsSplit c xs
    if x = c then [] :: r else (x :: r.headD []) :: r.tail

/-- JS `str.replace(pat, rep)` with a plain-string pattern: replace the first
occurrence only. -/
def replaceFirst (pat rep : JSStr) : JSStr → JSStr
  | [] => if pat.isPrefixOf ([] : JSStr) then rep else []
  | c :: cs =>
    if pat.isPrefixOf (c :: cs) then rep ++ (c :: cs).drop pat.length
    else c :: replaceFirst pat rep cs

/-- Substring search (JS `/pat/.test(s)` for a literal pattern). -/
def containsSub (pat : JSStr) : JSStr → Bool
  | [] => pat.isPrefixOf ([] : JSStr)
  | c :: cs => pat.isPrefixOf (c :: cs) || containsSub pat cs

/-- Numeric value of a digit character. -/
def digitVal (c : Char) : Nat := c.toNat - 48

/-- Value of a digit string (used only on all-digit strings). -/
def strVal (l : JSStr) : Nat := l.foldl (fun a c => 10 * a + digitVal c) 0

/-- JS `parseInt(s, 10)` restricted to the call sites of the sources, where the
argument always begins with a digit: value of the maximal digit prefix. -/
def jsParseIntNat (l : JSStr) : Nat := strVal (l.takeWhile Char.isDigit)

/-- Decimal rendering of a natural number (JS template `${n}`). -/
def natStr (n : Nat) : JSStr :=
  if _h : n < 10 then [Nat.digitChar n]
  else natStr (n / 10) ++ [Nat.digitChar (n % 10)]
  decreasing_by exact Nat.div_lt_self (by omega) (by omega)

/-- Truthiness of a nullable JS string: `null` and `""` are falsy. -/
def truthy : Option JSStr → Bool
  | none => false
  | some s => !s.isEmpty

/-! ### Session model (src/repl.js, latest revision)

`pipeline`, `inputFile`, `lastOutput` are the three pieces of mutable session
state of the REPL.  A pipeline stage is a spread copy of a `plugins` DB row
plus the `params` binding list. -/

/-- A pipeline stage: `{ ...plug, params }` in `add`. -/
structure Stage where
  id : Nat
  path : JSStr
  name : JSStr
  last_scanned : Nat
  params : List JSStr
  deriving DecidableEq, Repr

/-- The REPL's session state (`pipeline`, `inputFile`, `lastOutput`). -/
structure Session where
  pipeline : List Stage
  inputFile : Option JSStr
  lastOutput : Option JSStr
  deriving DecidableEq, Repr

/-- A row of the `plugins` table as used by `add` (src/repl.js). -/
structure PluginRow where
  id : Nat
  path : JSStr
  name : JSStr
  last_scanned : Nat
  deriving DecidableEq, Repr

/-- `add <id> [name:value ...]` (src/repl.js lines 358-370): push the found
plugin row with the raw token list as its `params`. -/
def add (sess : Session) (plug : PluginRow) (tokens : List JSStr) : Session :=
  { sess with pipeline := sess.pipeline ++
      [{ id := plug.id, path := plug.path, name := plug.name,
         last_scanned := plug.last_scanned, params := tokens }] }

/-- `mod <index> name:value ...` (src/repl.js lines 381-399).  Returns the new
session and whether a mutation happened (`false` = usage / range error).
`parsedIdx` is the operator's 1-based index; `tokens` is `args.slice(1)`.
The source joins all tokens into a single `--param` string. -/
def mod (sess : Session) (parsedIdx : Int) (tokens : List JSStr) :
    Session × Bool :=
  if tokens = [] then (sess, false)
  else if parsedIdx - 1 < 0 ∨ parsedIdx - 1 ≥ sess.pipeline.length then
    (sess, false)
  else
    let modIndex := (parsedIdx - 1).toNat
    let newParams := [List.intercalate (js " ") tokens]
    match sess.pipeline[modIndex]? with
    | some st =>
        ({ sess with
            pipeline := sess.pipeline.set modIndex { st with params := newParams } },
         true)
    | none => (sess, false)

/-- `rm`/`remove <index>` (src/repl.js lines 401-412): splice out the 1-based
index after the same range check as `mod`. -/
def remove (sess : Session) (parsedIdx : Int) : Session × Bool :=
  if parsedIdx - 1 < 0 ∨ parsedIdx - 1 ≥ sess.pipeline.length then (sess, false)
  else ({ sess with pipeline := sess.pipeline.eraseIdx (parsedIdx - 1).toNat }, true)

/-! ### Session persistence (src/repl.js lines 234-260)

`saveState` serializes `{ pipeline, inputFile, lastOutput }` as JSON (exact
for this data shape); `loadState` re-reads it with `pl || []`, `inf || null`,
`out || null` — JS `||` collapses the empty string to `null`. -/

/-- The on-disk snapshot produced by `saveState`. -/
structure Stored where
  pipeline : Option (List Stage)
  inputFile : Option JSStr
  lastOutput : Option JSStr
  deriving DecidableEq, Repr

/-- `saveState` (src/repl.js lines 234-241). -/
def saveState (sess : Session) : Stored :=
  { pipeline := some sess.pipeline
    inputFile := sess.inputFile
    lastOutput := sess.lastOutput }

/-- JS `x || null` on a nullable string: an empty string becomes `null`. -/
def jsOrNull : Option JSStr → Option JSStr
  | none => none
  | some s => if s = [] then none else some s

/-- `loadState` (src/repl.js lines 243-260): `pipeline = pl || []`,
`inputFile = inf || null`, `lastOutput = out || null`. -/
def loadState (st : Stored) : Session :=
  { pipeline := st.pipeline.getD []
    inputFile := jsOrNull st.inputFile
    lastOutput := jsOrNull st.lastOutput }

/-! ### Sample data for witnesses -/

/-- A sample catalog row. -/
def plugRowA : PluginRow := ⟨1, js "/p/A.vst3", js "A", 0⟩

/-- A sample pipeline stage. -/
def stageA : Stage := ⟨1, js "/p/A.vst3", js "A", 0, [js "gain:1"]⟩

/-- A sample single-stage session. -/
def sessA : Session := ⟨[stageA], none, some (js "old.wav")⟩

/-! ### Execution engine (src/repl.js lines 420-480, `run_pipeline`)

The external `Plugalyzer process` invocation is abstracted by a success
oracle `exec : pass → step → Bool`; `path.resolve` by a function argument
`resolve`; `Date.now()`-based default output naming by `defaultOut`. -/

/-- One attempted external `process` invocation with its resolved arguments. -/
structure Invocation where
  pass : Nat
  step : Nat
  plugin : JSStr
  input : JSStr
  output : JSStr
  params : List JSStr
  deriving DecidableEq, Repr

/-- `currentInput.replace(/(\.wav)$/i, "")`: strip a case-insensitive `.wav`
suffix. -/
def stripWav (l : JSStr) : JSStr :=
  if 4 ≤ l.length ∧ (l.drop (l.length - 4)).map Char.toLower = js ".wav" then
    l.take (l.length - 4)
  else l

/-- The generated intermediate path
`` `${currentInput.replace(/(\.wav)$/i, "")}_r${r + 1}_step${i + 1}.wav` ``. -/
def stepOutputStr (currentInput : JSStr) (r i : Nat) : JSStr :=
  stripWav currentInput ++ js "_r" ++ natStr (r + 1) ++ js "_step" ++
    natStr (i + 1) ++ js ".wav"

/-- The inner stage loop of `run_pipeline`, from stage `i` on, with the given
current input.  On a failed invocation the loop `break`s: the failing
invocation is recorded and the rest of the pass is abandoned. -/
def runStages (exec : Nat → Nat → Bool) (finalOutput : JSStr) (r N : Nat) :
    List Stage → Nat → JSStr → List Invocation
  | [], _, _ => []
  | plug :: rest, i, currentInput =>
    let outputFile :=
      if i = N - 1 then finalOutput else stepOutputStr currentInput r i
    let inv : Invocation :=
      ⟨r, i, plug.path, currentInput, outputFile, plug.params⟩
    if exec r i then
      inv :: runStages exec finalOutput r N rest (i + 1) outputFile
    else [inv]

/-- The outer pass loop of `run_pipeline` from pass `r`, `k` passes remaining,
threading the mutable `lastOutput` variable: each pass reads it for its
initial input (`r > 0`) and sets it to `finalOutput` unconditionally at the
end of the pass. -/
def runPasses (exec : Nat → Nat → Bool) (stages : List Stage) (N : Nat)
    (initialInput finalOutput : JSStr) :
    Nat → Nat → Option JSStr → List Invocation × Option JSStr
  | _, 0, lastOut => ([], lastOut)
  | r, k + 1, lastOut =>
    let currentInput := if r = 0 then initialInput else lastOut.getD []
    let invs := runStages exec finalOutput r N stages 0 currentInput
    let rest :=
      runPasses exec stages N initialInput finalOutput (r + 1) k (some finalOutput)
    (invs ++ rest.1, rest.2)

/-- The run loop over all `recurse` passes, with `N = stages.length`.
Returns the attempted invocations and the final `lastOutput` value. -/
def runCore (exec : Nat → Nat → Bool) (stages : List Stage)
    (initialInput finalOutput : JSStr) (recurse : Nat) (last0 : Option JSStr) :
    List Invocation × Option JSStr :=
  runPasses exec stages stages.length initialInput finalOutput 0 recurse last0

/-- The full `run`/`run_pipeline` command (src/repl.js lines 420-480):
guards (`pipeline` empty, `!inputFile && !filteredArgs[0]`), input/output
resolution with JS truthiness (`filteredArgs[0] || inputFile`,
`filteredArgs[1] ? resolve(...) : resolve(out_<now>.wav)`), then the pass
loop; finally the session's `lastOutput` holds the loop's value. -/
def run_pipeline (exec : Nat → Nat → Bool) (resolve : JSStr → JSStr)
    (sess : Session) (argIn argOut : Option JSStr) (recurse : Nat)
    (defaultOut : JSStr) : Session × List Invocation :=
  if sess.pipeline.isEmpty then (sess, [])
  else if ¬truthy sess.inputFile ∧ ¬truthy argIn then (sess, [])
  else
    let initialInput :=
      resolve (if truthy argIn then argIn.getD [] else sess.inputFile.getD [])
    let finalOutput :=
      if truthy argOut then resolve (argOut.getD []) else resolve defaultOut
    let res := runCore exec sess.pipeline initialInput finalOutput recurse
      sess.lastOutput
    ({ sess with lastOutput := res.2 }, res.1)

/-- Number of invocations a single pass attempts: stages up to and including
the first failure, all `N` if none fails. -/
def stopCount (exec : Nat → Nat → Bool) (r : Nat) : List Stage → Nat → Nat
  | [], _ => 0
  | _ :: rest, i => if exec r i then 1 + stopCount exec r rest (i + 1) else 1

/-- The pass/step suffix `_r${r + 1}_step${i + 1}` appended by stage `i` of
pass `r`. -/
def seg (r i : Nat) : JSStr :=
  js "_r" ++ natStr (r + 1) ++ js "_step" ++ natStr (i + 1)

/-- Concatenation of `len` consecutive suffixes starting at stage `i`. -/
def segsCat (r i : Nat) : Nat → JSStr
  | 0 => []
  | len + 1 => seg r i ++ segsCat r (i + 1) len

/-- The full suffix chain of stage `i` of pass `r` (stages `0..i`). -/
def segChain (r i : Nat) : JSStr := segsCat r 0 (i + 1)

/-! ### Parameter report parsing

Two parsers appear in the sources: `parseParameters` (src/seed.js lines
51-70) and the parse loop inside `listParameters`
(src/unnamed/part_000 lines 48-78).  Both first do
`stdout.split("\n").map(l => l.trim()).filter(Boolean)`. -/

/-- `split("\n").map(trim).filter(Boolean)`. -/
def preprocess (output : JSStr) : List JSStr :=
  ((jsSplit '\n' output).map trimStr).filter (fun l => !l.isEmpty)

/-- The header-line test `/^\d+:/.test(line)`: a non-empty digit prefix whose
first following character is a colon. -/
def headerTest (l : JSStr) : Bool :=
  !(l.takeWhile Char.isDigit).isEmpty &&
    ((l.dropWhile Char.isDigit).head? == some ':')

/-- The header-line match `line.match(/^(\d+):\s*(.+)$/)`: the ordinal from
the digit prefix and the name from the remainder after the colon, with
leading whitespace stripped by the greedy `\s*` (which backtracks to leave at
least one character for `(.+)`); `null` (here `none`) when the remainder is
empty. -/
def headerMatch (l : JSStr) : Option (Nat × JSStr) :=
  if headerTest l then
    match l.dropWhile Char.isDigit with
    | ':' :: r =>
      if r.isEmpty then none
      else some (strVal (l.takeWhile Char.isDigit),
          r.drop (min (r.takeWhile Char.isWhitespace).length (r.length - 1)))
    | _ => none
  else none

/-- The recognized metadata line heads. -/
def isMeta (l : JSStr) : Bool :=
  (js "Values:").isPrefixOf l || (js "Default:").isPrefixOf l ||
    (js "Supports text values:").isPrefixOf l

/-- A record of src/seed.js's `parseParameters`. -/
structure SeedParam where
  param_index : Nat
  name : JSStr
  values : JSStr
  default_value : JSStr
  deriving DecidableEq, Repr

/-- The loop of `parseParameters` (src/seed.js lines 56-67) over the
preprocessed lines.  The accumulator is the reversed `params` array; the
source pushes the current record on its header line and mutates it in place
afterwards, which is modelled by updating the accumulator's head.  A metadata
line before any header dereferences `current = null` (a TypeError), and a
header line passing `/^\d+:/` whose full match is `null` (empty remainder)
throws on destructuring: both are `.error`. -/
def parseSeedAux : List JSStr → List SeedParam → Except Unit (List SeedParam)
  | [], acc => .ok acc.reverse
  | line :: rest, acc =>
    if headerTest line then
      match headerMatch line with
      | some p => parseSeedAux rest (⟨p.1, p.2, [], []⟩ :: acc)
      | none => .error ()
    else if (js "Values:").isPrefixOf line then
      match acc with
      | [] => .error ()
      | cur :: prev =>
        parseSeedAux rest
          ({ cur with
              values := (line.drop (js "Values:").length).dropWhile
                Char.isWhitespace } :: prev)
    else if (js "Default:").isPrefixOf line then
      match acc with
      | [] => .error ()
      | cur :: prev =>
        parseSeedAux rest
          ({ cur with
              default_value := (line.drop (js "Default:").length).dropWhile
                Char.isWhitespace } :: prev)
    else parseSeedAux rest acc

/-- `parseParameters` (src/seed.js lines 51-70). -/
def parseParameters (output : JSStr) : Except Unit (List SeedParam) :=
  parseSeedAux (preprocess output) []

/-- A record of src/unnamed/part_000's `listParameters`. Fields other than
the header data are set only when the corresponding metadata line occurs. -/
structure ScanParam where
  param_index : Nat
  name : JSStr
  values : Option JSStr
  default_value : Option JSStr
  supports_text : Option Bool
  deriving DecidableEq, Repr

/-- The parse loop of `listParameters` (src/unnamed/part_000 lines 58-72):
flush-on-next-header style with an explicit `current` record; a metadata line
with `current = null` throws (caught by the surrounding `try`). -/
def scanParseAux :
    List JSStr → Option ScanParam → List ScanParam → Except Unit (List ScanParam)
  | [], cur, acc => .ok (acc ++ cur.toList)
  | line :: rest, cur, acc =>
    if headerTest line then
      let parts := jsSplit ':' line
      scanParseAux rest
        (some ⟨jsParseIntNat (parts.headD []),
          trimStr (List.intercalate (js ":") parts.tail), none, none, none⟩)
        (acc ++ cur.toList)
    else if (js "Values:").isPrefixOf line then
      match cur with
      | none => .error ()
      | some c =>
        scanParseAux rest
          (some { c with
              values := some (trimStr (replaceFirst (js "Values:") [] line)) })
          acc
    else if (js "Default:").isPrefixOf line then
      match cur with
      | none => .error ()
      | some c =>
        scanParseAux rest
          (some { c with
              default_value :=
                some (trimStr (replaceFirst (js "Default:") [] line)) })
          acc
    else if (js "Supports text values:").isPrefixOf line then
      match cur with
      | none => .error ()
      | some c =>
        scanParseAux rest
          (some { c with
              supports_text :=
                some (containsSub (js "true") (line.map Char.toLower)) })
          acc
    else scanParseAux rest cur acc

/-- `listParameters`' parsing result (src/unnamed/part_000 lines 48-78): the
`catch` around the whole body turns any thrown error into `[]`. -/
def listParametersResult (stdout : JSStr) : List ScanParam :=
  match scanParseAux (preprocess stdout) none [] with
  | .ok ps => ps
  | .error _ => []

/-- Well-formedness of a preprocessed line sequence per the report grammar:
every recognized metadata line is preceded by some header line, and every
line passing the header test has a non-empty name. -/
def wfAux : List JSStr → Bool → Bool
  | [], _ => true
  | l :: ls, seen =>
    if headerTest l then (headerMatch l).isSome && wfAux ls true
    else if isMeta l then seen && wfAux ls seen
    else wfAux ls seen

/-- Well-formedness of a textual report. -/
def wellFormed (output : JSStr) : Bool := wfAux (preprocess output) false

/-- The (ordinal, name) pairs of the report's header lines, in order. -/
def hdrKeys (lines : List JSStr) : List (Nat × JSStr) :=
  lines.filterMap headerMatch

/-- Lines the seed-parser branches on (header, `Values:`, `Default:`). -/
def recognizedSeed (l : JSStr) : Bool :=
  headerTest l || (js "Values:").isPrefixOf l || (js "Default:").isPrefixOf l

/-- Lines the scan-parser branches on. -/
def recognizedScan (l : JSStr) : Bool :=
  headerTest l || isMeta l

/-- Identity of a seed-parser record. -/
def seedKey (p : SeedParam) : Nat × JSStr := (p.param_index, p.name)

/-- Identity of a scan-parser record. -/
def scanKey (p : ScanParam) : Nat × JSStr := (p.param_index, p.name)

/-! ### Catalog store (src/unnamed/part_000)

The `plugins` and `parameters` tables are lists of rows; SQLite's
`INSERT ... ON CONFLICT(path) DO UPDATE SET name=excluded.name RETURNING`
and `INSERT OR REPLACE` (delete the conflicting primary-key row, append the
new one) are modelled directly.  `fs.statSync().mtimeMs` and `Date.now()`
are external inputs (`modifiedTime`, `now`), as is the textual report. -/

/-- A row of the `parameters` table. -/
structure ParamRow where
  plugin_id : Nat
  param_index : Nat
  name : JSStr
  values : JSStr
  default_value : JSStr
  supports_text : Bool
  deriving DecidableEq, Repr

/-- The catalog database. -/
structure DB where
  plugins : List PluginRow
  params : List ParamRow
  nextId : Nat
  deriving DecidableEq, Repr

/-- The plugin upsert of `savePlugin` (src/unnamed/part_000 lines 85-90):
insert with `last_scanned = 0`, or update only the name on a path conflict;
returns the new database and the `RETURNING id, last_scanned` values. -/
def upsertPlugin (db : DB) (path name : JSStr) : DB × Nat × Nat :=
  match db.plugins.find? (fun r => r.path == path) with
  | some row =>
    ({ db with plugins := db.plugins.map fun r =>
        if r.path == path then { r with name := name } else r },
      row.id, row.last_scanned)
  | none =>
    ({ db with
        plugins := db.plugins ++ [⟨db.nextId, path, name, 0⟩]
        nextId := db.nextId + 1 },
      db.nextId, 0)

/-- Conversion of a parsed record to a table row, with the source's
`p.values || ""`, `p.default_value || ""`, `p.supports_text ? 1 : 0`. -/
def toParamRow (pid : Nat) (p : ScanParam) : ParamRow :=
  ⟨pid, p.param_index, p.name, p.values.getD [], p.default_value.getD [],
    p.supports_text.getD false⟩

/-- `INSERT OR REPLACE INTO parameters` keyed by the
`(plugin_id, param_index)` primary key: delete any conflicting row, append
the new one. -/
def insertOrReplaceParam (pid : Nat) (db : DB) (p : ScanParam) : DB :=
  let kept := db.params.filter
    (fun r => !(r.plugin_id == pid && r.param_index == p.param_index))
  { db with params := kept ++ [toParamRow pid p] }

/-- `savePlugin` (src/unnamed/part_000 lines 80-121): upsert the plugin row,
skip (returning `false`) when `last_scanned` is non-zero and ≥ the bundle's
modification time, otherwise insert-or-replace every parsed parameter and set
`last_scanned` to the current time. -/
def savePlugin (db : DB) (pluginPath pluginName : JSStr)
    (parameters : List ScanParam) (modifiedTime now : Nat) : DB × Bool :=
  let u := upsertPlugin db pluginPath pluginName
  let db1 := u.1
  let plugin_id := u.2.1
  if u.2.2 ≠ 0 ∧ u.2.2 ≥ modifiedTime then (db1, false)
  else
    let db2 := parameters.foldl (insertOrReplaceParam plugin_id) db1
    let db3 := { db2 with plugins := db2.plugins.map fun r =>
        if r.id == plugin_id then { r with last_scanned := now } else r }
    (db3, true)

/-- `path.basename`: the part after the last slash. -/
def basenameJS (l : JSStr) : JSStr := ((jsSplit '/' l).getLast?).getD []

/-- One iteration of `seed`'s per-plugin loop (src/unnamed/part_000 lines
133-148): `listParameters` is invoked first — unconditionally, so the
external listing contract runs exactly once per scan — and only then does
`savePlugin` decide whether to skip.  Returns the new database and the
number of external listing invocations. -/
def seedStep (db : DB) (pluginPath : JSStr) (modifiedTime now : Nat)
    (stdout : JSStr) : DB × Nat :=
  let pluginName := basenameJS pluginPath
  let params := listParametersResult stdout
  if params.length = 0 then (db, 1)
  else ((savePlugin db pluginPath pluginName params modifiedTime now).1, 1)

/-- The stored parameter rows of `(plugin, ordinal)` — the composite key. -/
def rowsFor (db : DB) (pid idx : Nat) : List ParamRow :=
  db.params.filter (fun r => r.plugin_id == pid && r.param_index == idx)

/-- The last parsed record with a given ordinal (the one `INSERT OR REPLACE`
leaves in place). -/
def lastNew : List ScanParam → Nat → Option ScanParam
  | [], _ => none
  | p :: ps, idx =>
    match lastNew ps idx with
    | some q => some q
    | none => if p.param_index == idx then some p else none

/-- A sample catalog for the scan claims: one plugin already scanned at time
100, holding parameters at ordinals 0 and 1. -/
def dbA : DB :=
  ⟨[⟨1, js "/p/A.vst3", js "A.vst3", 100⟩],
    [⟨1, 0, js "Gain", js "1 to 2", js "0", false⟩,
     ⟨1, 1, js "Mix", js "0 to 1", js "1", false⟩], 2⟩

/-- The same catalog with `last_scanned = 0` (never scanned). -/
def dbB : DB :=
  ⟨[⟨1, js "/p/A.vst3", js "A.vst3", 0⟩],
    [⟨1, 0, js "Gain", js "1 to 2", js "0", false⟩,
     ⟨1, 1, js "Mix", js "0 to 1", js "1", false⟩], 2⟩

/-! ### Discovery (src/unnamed/part_000 lines 33-46, `findPlugins`)

The filesystem is a tree; a directory is readable (`ok = true`, entries
known) or unreadable (`readdirSync` throws).  `findPlugins` has no
`try`/`catch`: a thrown error propagates out of the whole recursion. -/

/-- A filesystem node: a file, or a directory with a readability flag. -/
inductive FsNode where
  | file : FsNode
  | dir : Bool → List (JSStr × FsNode) → FsNode

/-- A bundle directory name (`.vst3` or `.component` suffix). -/
def bundleName (name : JSStr) : Bool :=
  (js ".vst3").isSuffixOf name || (js ".component").isSuffixOf name

/-- `entry.isDirectory()`. -/
def isDirNode : FsNode → Bool
  | .file => false
  | .dir _ _ => true

/-- `findPlugins(dir)` (src/unnamed/part_000 lines 33-46): walk the entries
in order; a directory whose name has a bundle suffix is collected without
being read; any other directory is recursed into; files are skipped; reading
an unreadable directory throws, aborting the entire walk. -/
def findPlugins : JSStr → FsNode → Except Unit (List JSStr)
  | _, .file => .error ()
  | _, .dir false _ => .error ()
  | _, .dir true [] => .ok []
  | dirPath, .dir true ((name, sub) :: rest) => do
    let fullPath := dirPath ++ '/' :: name
    let here ←
      if isDirNode sub then
        if bundleName name then .ok [fullPath]
        else findPlugins fullPath sub
      else .ok []
    let there ← findPlugins dirPath (.dir true rest)
    .ok (here ++ there)
  termination_by _ node => sizeOf node
  decreasing_by
    all_goals simp_wf
    all_goals omega

/-- Whether the walk from a node can finish without hitting an unreadable
directory (bundle directories are never read). -/
def walkClean : FsNode → Bool
  | .file => false
  | .dir false _ => false
  | .dir true [] => true
  | .dir true ((name, sub) :: rest) =>
    (if isDirNode sub then
      if bundleName name then true else walkClean sub
     else true) &&
      walkClean (.dir true rest)
  termination_by node => sizeOf node
  decreasing_by
    all_goals simp_wf
    all_goals omega

/-- Success of an `Except`-valued computation. -/
def exceptOk {α : Type} : Except Unit α → Bool
  | .ok _ => true
  | .error _ => false

/-- A sample tree: an unreadable subdirectory next to a readable bundle. -/
def treeA : FsNode :=
  .dir true [(js "locked", .dir false []), (js "B.vst3", .dir true [])]

/-- The stage loop attempts exactly `stopCount` invocations. -/
theorem length_runStages (exec : Nat → Nat → Bool) (finalOutput : JSStr)
    (r N : Nat) :
    ∀ (plugs : List Stage) (i : Nat) (cur : JSStr),
      (runStages exec finalOutput r N plugs i cur).length =
        stopCount exec r plugs i := by
  intro plugs
  induction plugs with
  | nil => intro i cur; simp [runStages, stopCount]
  | cons p rest ih =>
    intro i cur
    by_cases h : exec r i <;> simp [runStages, stopCount, h, ih, Nat.add_comm]

/-- The pass loop attempts the sum of the per-pass counts, one summand per
pass: a failed pass never stops later passes. -/
theorem length_runPasses (exec : Nat → Nat → Bool) (stages : List Stage)
    (N : Nat) (ii fo : JSStr) :
    ∀ (k r : Nat) (lastOut : Option JSStr),
      (runPasses exec stages N ii fo r k lastOut).1.length =
        ((List.range' r k).map fun r' => stopCount exec r' stages 0).sum := by
  intro k
  induction k with
  | zero => intro r lastOut; simp [runPasses]
  | succ k ih =>
    intro r lastOut
    simp [runPasses, List.range'_succ, ih, length_runStages]

/-- After at least one pass the threaded `lastOutput` is `finalOutput`. -/
theorem snd_runPasses (exec : Nat → Nat → Bool) (stages : List Stage)
    (N : Nat) (ii fo : JSStr) :
    ∀ (k r : Nat) (lastOut : Option JSStr),
      (runPasses exec stages N ii fo r k lastOut).2 =
        if k = 0 then lastOut else some fo := by
  intro k
  induction k with
  | zero => intro r lastOut; simp [runPasses]
  | succ k ih =>
    intro r lastOut
    have h := ih (r + 1) (some fo)
    simp [runPasses, h]

/-- If every invocation succeeds, a pass attempts every stage. -/
theorem stopCount_of_success (exec : Nat → Nat → Bool) (r : Nat)
    (h : ∀ i, exec r i = true) :
    ∀ (plugs : List Stage) (i : Nat), stopCount exec r plugs i = plugs.length := by
  intro plugs
  induction plugs with
  | nil => intro i; simp [stopCount]
  | cons p rest ih => intro i; simp [stopCount, h i, ih, Nat.add_comm]

/-! ### Claim C1 -/

/-- C1 (amended): a failed invocation abandons only the remaining stages of
the current pass — every one of the `R` passes is still attempted, each
contributing its own stop count (stages up to its first failure); only for
fully successful runs is the total exactly `N × R`. -/
theorem run_invocation_count (exec : Nat → Nat → Bool) (stages : List Stage)
    (ii fo : JSStr) (R : Nat) (last0 : Option JSStr) :
    ((runCore exec stages ii fo R last0).1.length =
        ((List.range R).map fun r => stopCount exec r stages 0).sum) ∧
      ((∀ r i, exec r i = true) →
        (runCore exec stages ii fo R last0).1.length = R * stages.length) := by
  have hlen : (runCore exec stages ii fo R last0).1.length =
      ((List.range R).map fun r => stopCount exec r stages 0).sum := by
    rw [runCore, length_runPasses, List.range_eq_range']
  refine ⟨hlen, fun h => ?_⟩
  rw [hlen]
  have : ∀ r ∈ List.range R,
      stopCount exec r stages 0 = stages.length := fun r _ =>
    stopCount_of_success exec r (h r) stages 0
  rw [List.map_congr_left this]
  simp [List.map_const', List.sum_replicate, smul_eq_mul]

/-- Witness for C1: one stage, two passes, everything succeeding. -/
theorem run_invocation_count_witness :
    (∀ r i, (fun _ _ => true : Nat → Nat → Bool) r i = true) ∧
      (runCore (fun _ _ => true) [stageA] (js "in.wav") (js "out.wav") 2
          none).1.length = 2 * [stageA].length :=
  ⟨fun _ _ => rfl,
    (run_invocation_count (fun _ _ => true) [stageA] (js "in.wav")
        (js "out.wav") 2 none).2 (fun _ _ => rfl)⟩

/-- Counterexample to C1 as stated: with one stage, two passes and every
invocation failing, the run attempts two invocations — one in each pass —
although the very first invocation failed: the failure does not exit the
run loop, so the count does not stop at the failing invocation. -/
theorem run_counterexample_second_pass_attempted :
    ((runCore (fun _ _ => false) [stageA] (js "in.wav") (js "out.wav") 2
        none).1.map Invocation.pass) = [0, 1] := by
  simp [runCore, runPasses, runStages]

/-! ### Claim C2 -/

/-- C2 (amended): a run never mutates the stage list or the default input,
but the last-output pointer is set to the run's final output path at the end
of every pass regardless of stage failures: any run that passes the initial
guards and makes at least one pass ends with `lastOutput = finalOutput`,
even when an invocation failed. -/
theorem run_session_effect (exec : Nat → Nat → Bool) (resolve : JSStr → JSStr)
    (sess : Session) (argIn argOut : Option JSStr) (recurse : Nat)
    (defaultOut : JSStr) :
    ((run_pipeline exec resolve sess argIn argOut recurse defaultOut).1.pipeline =
        sess.pipeline ∧
      (run_pipeline exec resolve sess argIn argOut recurse
          defaultOut).1.inputFile = sess.inputFile) ∧
      (sess.pipeline ≠ [] → (truthy sess.inputFile ∨ truthy argIn) →
        1 ≤ recurse →
        (run_pipeline exec resolve sess argIn argOut recurse
            defaultOut).1.lastOutput =
          some (if truthy argOut then resolve (argOut.getD [])
                else resolve defaultOut)) := by
  constructor
  · constructor
    · unfold run_pipeline
      split
      · rfl
      · split <;> rfl
    · unfold run_pipeline
      split
      · rfl
      · split <;> rfl
  · intro hp hin hr
    unfold run_pipeline
    split
    next hemp => exact absurd (List.isEmpty_iff.mp hemp) hp
    next hemp =>
      split
      next hguard =>
        rcases hin with h | h
        · exact absurd hguard (by simp [h])
        · exact absurd hguard (by simp [h])
      next hguard =>
        simp only [runCore, snd_runPasses]
        rw [if_neg (by omega)]

/-- Witness for C2: a failing single-pass run on `sessA` still rewrites
`lastOutput` to the resolved explicit output argument. -/
theorem run_session_effect_witness :
    (sessA.pipeline ≠ [] ∧ (truthy sessA.inputFile ∨
        truthy (some (js "in.wav"))) ∧ 1 ≤ 1) ∧
      (run_pipeline (fun _ _ => false) id sessA (some (js "in.wav"))
          (some (js "out.wav")) 1 (js "t.wav")).1.lastOutput =
        some (if truthy (some (js "out.wav")) then
            id ((some (js "out.wav")).getD []) else id (js "t.wav")) :=
  ⟨⟨by decide, Or.inr (by decide), le_refl 1⟩,
    (run_session_effect (fun _ _ => false) id sessA (some (js "in.wav"))
        (some (js "out.wav")) 1 (js "t.wav")).2 (by decide)
      (Or.inr (by decide)) (le_refl 1)⟩

/-- Counterexample to C2 as stated: stage A fails, yet `lastOutput` changes
from `old.wav` to the run's final output path `out.wav`. -/
theorem run_failure_changes_lastOutput :
    (run_pipeline (fun _ _ => false) id sessA (some (js "in.wav"))
        (some (js "out.wav")) 1 (js "t.wav")).1.lastOutput =
      some (js "out.wav") ∧
      sessA.lastOutput = some (js "old.wav") ∧
      js "out.wav" ≠ js "old.wav" := by
  refine ⟨?_, rfl, by decide⟩
  have := (run_session_effect (fun _ _ => false) id sessA (some (js "in.wav"))
      (some (js "out.wav")) 1 (js "t.wav")).2 (by decide)
    (Or.inr (by decide)) (le_refl 1)
  simpa [truthy] using this

/-! ### Decimal rendering facts (for the intermediate-path claims) -/

/-- `Nat.digitChar` of a value below 10 is a digit character. -/
theorem digitChar_isDigit (k : Nat) (h : k < 10) : (Nat.digitChar k).isDigit := by
  interval_cases k <;> decide

/-- `digitVal` inverts `Nat.digitChar` below 10. -/
theorem digitVal_digitChar (k : Nat) (h : k < 10) :
    digitVal (Nat.digitChar k) = k := by
  interval_cases k <;> decide

/-- Every character of a rendered natural number is a digit. -/
theorem natStr_digits (n : Nat) : ∀ c ∈ natStr n, c.isDigit := by
  induction n using Nat.strong_induction_on with
  | _ n ih =>
    rw [natStr]
    split
    next h =>
      intro c hc
      simp only [List.mem_singleton] at hc
      subst hc
      exact digitChar_isDigit n h
    next h =>
      intro c hc
      rcases List.mem_append.mp hc with hc | hc
      · exact ih (n / 10) (Nat.div_lt_self (by omega) (by omega)) c hc
      · simp only [List.mem_singleton] at hc
        subst hc
        exact digitChar_isDigit (n % 10) (Nat.mod_lt _ (by omega))

/-- `strVal` of a snoc. -/
theorem strVal_concat (l : JSStr) (c : Char) :
    strVal (l ++ [c]) = 10 * strVal l + digitVal c := by
  simp [strVal, List.foldl_append]

/-- `strVal` recovers the rendered number: rendering is lossless. -/
theorem strVal_natStr (n : Nat) : strVal (natStr n) = n := by
  induction n using Nat.strong_induction_on with
  | _ n ih =>
    rw [natStr]
    split
    next h =>
      show strVal ([] ++ [Nat.digitChar n]) = n
      rw [strVal_concat]
      simp [strVal, digitVal_digitChar n h]
    next h =>
      rw [strVal_concat, ih (n / 10) (Nat.div_lt_self (by omega) (by omega)),
        digitVal_digitChar (n % 10) (Nat.mod_lt _ (by omega))]
      omega

/-- Decimal rendering is injective. -/
theorem natStr_injective : Function.Injective natStr := fun n m h => by
  rw [← strVal_natStr n, ← strVal_natStr m, h]

/-- Cancellation of a digit block in front of a non-digit character: the digit
prefix of a string is determined. -/
theorem digit_block_cancel :
    ∀ (A B : JSStr) (c d : Char) (u v : JSStr),
      (∀ a ∈ A, a.isDigit) → (∀ b ∈ B, b.isDigit) →
      ¬c.isDigit → ¬d.isDigit →
      A ++ c :: u = B ++ d :: v → A = B ∧ c = d ∧ u = v := by
  intro A
  induction A with
  | nil =>
    intro B c d u v _ hB hc hd h
    cases B with
    | nil =>
      simp only [List.nil_append, List.cons.injEq] at h
      exact ⟨rfl, h.1, h.2⟩
    | cons b B' =>
      simp only [List.nil_append, List.cons_append, List.cons.injEq] at h
      have hb : b.isDigit := hB b (List.mem_cons_self b B')
      rw [← h.1] at hb
      exact absurd hb hc
  | cons a A' ih =>
    intro B c d u v hA hB hc hd h
    cases B with
    | nil =>
      simp only [List.cons_append, List.nil_append, List.cons.injEq] at h
      have ha : a.isDigit := hA a (List.mem_cons_self a A')
      rw [h.1] at ha
      exact absurd ha hd
    | cons b B' =>
      simp only [List.cons_append, List.cons.injEq] at h
      obtain ⟨hab, h'⟩ := h
      obtain ⟨h1, h2, h3⟩ := ih B' c d u v
        (fun x hx => hA x (List.mem_cons_of_mem a hx))
        (fun x hx => hB x (List.mem_cons_of_mem b hx)) hc hd h'
      exact ⟨by rw [hab, h1], h2, h3⟩

/-! ### Intermediate path structure -/

/-- `stepOutputStr` in terms of `seg`. -/
theorem stepOutputStr_eq_seg (cur : JSStr) (r i : Nat) :
    stepOutputStr cur r i = stripWav cur ++ (seg r i ++ js ".wav") := by
  simp [stepOutputStr, seg, List.append_assoc]

/-- Stripping the literal `.wav` the engine just appended. -/
theorem stripWav_append_wav (x : JSStr) : stripWav (x ++ js ".wav") = x := by
  have hlen : (x ++ js ".wav").length = x.length + 4 := by simp [js]
  have hsub : x.length + 4 - 4 = x.length := by omega
  unfold stripWav
  rw [if_pos]
  · rw [hlen, hsub, List.take_left]
  · constructor
    · omega
    · rw [hlen, hsub, List.drop_left]
      decide

/-- Reversal of one suffix segment. -/
theorem seg_reverse (r i : Nat) :
    (seg r i).reverse =
      (natStr (i + 1)).reverse ++
        (js "pets_" ++ ((natStr (r + 1)).reverse ++ js "r_")) := by
  have h1 : (js "_r").reverse = js "r_" := by decide
  have h2 : (js "_step").reverse = js "pets_" := by decide
  simp [seg, List.reverse_append, h1, h2, List.append_assoc]

/-- A reversed suffix segment determines its pass and step and the rest of
the string. -/
theorem segRev_cancel (r1 a r2 b : Nat) (y1 y2 : JSStr)
    (h : (seg r1 a).reverse ++ y1 = (seg r2 b).reverse ++ y2) :
    r1 = r2 ∧ a = b ∧ y1 = y2 := by
  rw [seg_reverse, seg_reverse] at h
  have hps : js "pets_" = 'p' :: js "ets_" := by decide
  have hru : js "r_" = 'r' :: js "_" := by decide
  simp only [hps, hru, List.append_assoc, List.cons_append] at h
  have hdig : ∀ n : Nat, ∀ c ∈ (natStr n).reverse, c.isDigit := by
    intro n c hc
    exact natStr_digits n c (List.mem_reverse.mp hc)
  obtain ⟨hA, _, hrest⟩ := digit_block_cancel _ _ 'p' 'p' _ _
    (hdig (a + 1)) (hdig (b + 1)) (by decide) (by decide) h
  have hab : a = b := by
    have := natStr_injective (List.reverse_injective hA)
    omega
  have hrest2 := List.append_cancel_left hrest
  obtain ⟨hR, _, hy⟩ := digit_block_cancel _ _ 'r' 'r' _ _
    (hdig (r1 + 1)) (hdig (r2 + 1)) (by decide) (by decide) hrest2
  have hr : r1 = r2 := by
    have := natStr_injective (List.reverse_injective hR)
    omega
  exact ⟨hr, hab, List.append_cancel_left hy⟩

/-- Decomposition of the chain from the right. -/
theorem segChain_succ (r : Nat) :
    ∀ i, segChain r (i + 1) = segChain r i ++ seg r (i + 1) := by
  have key : ∀ len i, segsCat r i (len + 1) = segsCat r i len ++ seg r (i + len) := by
    intro len
    induction len with
    | zero => intro i; simp [segsCat]
    | succ len ihl =>
      intro i
      have harith : i + 1 + len = i + (len + 1) := by omega
      calc segsCat r i (len + 2) = seg r i ++ segsCat r (i + 1) (len + 1) := rfl
        _ = seg r i ++ (segsCat r (i + 1) len ++ seg r (i + 1 + len)) := by
              rw [ihl]
        _ = segsCat r i (len + 1) ++ seg r (i + (len + 1)) := by
              rw [harith, segsCat, List.append_assoc]
  intro i
  have := key (i + 1) 0
  simpa [segChain] using this

/-- A reversed suffix chain determines pass, step and the remainder. -/
theorem segChainRev_cancel :
    ∀ (i1 i2 r1 r2 : Nat) (x1 x2 : JSStr),
      (segChain r1 i1).reverse ++ x1 = (segChain r2 i2).reverse ++ x2 →
      r1 = r2 ∧ i1 = i2 ∧ x1 = x2 := by
  intro i1
  induction i1 with
  | zero =>
    intro i2 r1 r2 x1 x2 h
    cases i2 with
    | zero =>
      have h0 : ∀ r : Nat, segChain r 0 = seg r 0 := by
        intro r; simp [segChain, segsCat]
      rw [h0, h0] at h
      obtain ⟨hr, _, hx⟩ := segRev_cancel r1 0 r2 0 x1 x2 h
      exact ⟨hr, rfl, hx⟩
    | succ j =>
      rw [segChain_succ, List.reverse_append, List.append_assoc] at h
      have h0 : segChain r1 0 = seg r1 0 := by simp [segChain, segsCat]
      rw [h0] at h
      obtain ⟨_, hstep, _⟩ := segRev_cancel r1 0 r2 (j + 1) _ _ h
      omega
  | succ i ih =>
    intro i2 r1 r2 x1 x2 h
    cases i2 with
    | zero =>
      rw [segChain_succ, List.reverse_append, List.append_assoc] at h
      have h0 : segChain r2 0 = seg r2 0 := by simp [segChain, segsCat]
      rw [h0] at h
      obtain ⟨_, hstep, _⟩ := segRev_cancel r1 (i + 1) r2 0 _ _ h
      omega
    | succ j =>
      rw [segChain_succ, segChain_succ, List.reverse_append,
        List.reverse_append, List.append_assoc, List.append_assoc] at h
      obtain ⟨hr, hstep, hrest⟩ := segRev_cancel r1 (i + 1) r2 (j + 1) _ _ h
      have hij : i = j := by omega
      subst hij
      obtain ⟨_, _, hx⟩ := ih i r1 r2 x1 x2 hrest
      exact ⟨hr, by omega, hx⟩

/-- Two generated intermediate paths coincide only for the same pass and
step, whatever base names they were derived from. -/
theorem intermediate_path_inj (b1 b2 : JSStr) (r1 i1 r2 i2 : Nat)
    (h : b1 ++ (segChain r1 i1 ++ js ".wav") = b2 ++ (segChain r2 i2 ++ js ".wav")) :
    r1 = r2 ∧ i1 = i2 := by
  have hrev := congrArg List.reverse h
  simp only [List.reverse_append] at hrev
  have hwav : (js ".wav").reverse = 'v' :: 'a' :: 'w' :: '.' :: [] := by decide
  rw [hwav] at hrev
  simp only [List.cons_append, List.cons.injEq, true_and, List.append_assoc] at hrev
  obtain ⟨hr, hi, _⟩ := segChainRev_cancel i1 i2 r1 r2 _ _ hrev
  exact ⟨hr, hi⟩

/-! ### Output-path characterization of the stage loop -/

/-- Every attempted invocation writes to the run's final output path exactly
when it is the last stage of its pass, and otherwise to the generated
pass/step-suffixed path derived from its own input. -/
theorem runStages_output_of_input (exec : Nat → Nat → Bool) (fo : JSStr)
    (r N : Nat) :
    ∀ (plugs : List Stage) (i : Nat) (cur : JSStr),
      ∀ inv ∈ runStages exec fo r N plugs i cur,
        inv.pass = r ∧
          inv.output = if inv.step = N - 1 then fo
            else stepOutputStr inv.input inv.pass inv.step := by
  intro plugs
  induction plugs with
  | nil => intro i cur inv hinv; simp [runStages] at hinv
  | cons p rest ih =>
    intro i cur inv hinv
    simp only [runStages] at hinv
    by_cases hx : exec r i
    · rw [if_pos hx] at hinv
      rcases List.mem_cons.mp hinv with hinv | hinv
      · subst hinv
        exact ⟨rfl, rfl⟩
      · exact ih (i + 1) _ inv hinv
    · rw [if_neg hx] at hinv
      simp only [List.mem_singleton] at hinv
      subst hinv
      exact ⟨rfl, rfl⟩

/-- Structural form of the generated paths: from stage `i` with current input
`cur`, the invocation of stage `s` (when not the last of the pass) writes to
`stripWav cur ++ segsCat r i (s + 1 - i) ++ ".wav"`. -/
theorem runStages_output_spec (exec : Nat → Nat → Bool) (fo : JSStr)
    (r N : Nat) :
    ∀ (plugs : List Stage) (i : Nat) (cur : JSStr),
      i + plugs.length ≤ N →
      ∀ inv ∈ runStages exec fo r N plugs i cur,
        inv.pass = r ∧ i ≤ inv.step ∧ inv.step < i + plugs.length ∧
          (inv.step ≠ N - 1 →
            inv.output =
              stripWav cur ++ (segsCat r i (inv.step + 1 - i) ++ js ".wav")) := by
  intro plugs
  induction plugs with
  | nil => intro i cur hN inv hinv; simp [runStages] at hinv
  | cons p rest ih =>
    intro i cur hN inv hinv
    simp only [runStages] at hinv
    have hhead : ∀ h : inv =
        (⟨r, i, p.path, cur,
          if i = N - 1 then fo else stepOutputStr cur r i, p.params⟩ : Invocation),
        inv.pass = r ∧ i ≤ inv.step ∧ inv.step < i + (p :: rest).length ∧
          (inv.step ≠ N - 1 →
            inv.output =
              stripWav cur ++ (segsCat r i (inv.step + 1 - i) ++ js ".wav")) := by
      intro h
      subst h
      refine ⟨rfl, le_refl i, by simp, fun hne => ?_⟩
      simp only [if_neg hne]
      rw [stepOutputStr_eq_seg]
      have : segsCat r i (i + 1 - i) = seg r i := by
        have h1 : i + 1 - i = 1 := by omega
        rw [h1]
        simp [segsCat]
      rw [this]
    by_cases hx : exec r i
    · rw [if_pos hx] at hinv
      rcases List.mem_cons.mp hinv with hinv | hinv
      · exact hhead hinv
      · by_cases hlast : i = N - 1
        · exfalso
          have hrest : rest = [] := by
            have hlen : i + (p :: rest).length ≤ N := hN
            simp only [List.length_cons] at hlen
            have : i + 1 ≤ N := by omega
            have : rest.length = 0 := by omega
            exact List.length_eq_zero.mp this
          rw [hrest] at hinv
          simp [runStages] at hinv
        · have hN' : (i + 1) + rest.length ≤ N := by
            simp only [List.length_cons] at hN
            omega
          obtain ⟨hp, hlo, hhi, hout⟩ := ih (i + 1)
            (if i = N - 1 then fo else stepOutputStr cur r i) hN' inv hinv
          refine ⟨hp, by omega, by simp only [List.length_cons]; omega,
            fun hne => ?_⟩
          rw [hout hne, if_neg hlast, stepOutputStr_eq_seg]
          have hs : stripWav (stripWav cur ++ (seg r i ++ js ".wav")) =
              stripWav cur ++ seg r i := by
            rw [← List.append_assoc]
            exact stripWav_append_wav _
          rw [hs]
          have harith : inv.step + 1 - i = (inv.step - i) + 1 := by omega
          have harith2 : inv.step + 1 - (i + 1) = inv.step - i := by omega
          rw [harith, harith2, segsCat]
          simp [List.append_assoc]
    · rw [if_neg hx] at hinv
      simp only [List.mem_singleton] at hinv
      exact hhead hinv

/-- Lifting to the pass loop: every invocation of the run comes from the
stage loop of its own pass, whose initial input is the run's starting input
on pass 0 and the final output path on every later pass. -/
theorem runPasses_mem (exec : Nat → Nat → Bool) (stages : List Stage)
    (N : Nat) (ii fo : JSStr) :
    ∀ (k r : Nat) (lastOut : Option JSStr), (r ≠ 0 → lastOut = some fo) →
      ∀ inv ∈ (runPasses exec stages N ii fo r k lastOut).1,
        ∃ r', r ≤ r' ∧ r' < r + k ∧
          inv ∈ runStages exec fo r' N stages 0 (if r' = 0 then ii else fo) := by
  intro k
  induction k with
  | zero => intro r lastOut _ inv hinv; simp [runPasses] at hinv
  | succ k ihk =>
    intro r lastOut hlast inv hinv
    simp only [runPasses, List.mem_append] at hinv
    rcases hinv with hinv | hinv
    · refine ⟨r, le_refl r, by omega, ?_⟩
      by_cases hr : r = 0
      · subst hr
        simpa using hinv
      · rw [hlast hr] at hinv
        simp only [Option.getD_some] at hinv
        rw [if_neg hr] at hinv
        simpa [hr] using hinv
    · obtain ⟨r', h1, h2, h3⟩ := ihk (r + 1) (some fo) (fun _ => rfl) inv hinv
      exact ⟨r', by omega, by omega, h3⟩

/-! ### Claim C7 -/

/-- C7 (amended): the output path of stage `i` of any pass is the run's final
output path exactly for the last stage of the pass — the final output is
written by the last stage of *every* pass, not only the last one — and
otherwise it is the generated intermediate path derived from that stage's
current input with the `_r<pass>_step<step>` suffix; distinct (pass, stage)
invocations never share a generated intermediate path. -/
theorem run_output_path_spec (exec : Nat → Nat → Bool) (stages : List Stage)
    (ii fo : JSStr) (R : Nat) (last0 : Option JSStr) :
    (∀ inv ∈ (runCore exec stages ii fo R last0).1,
        inv.output = if inv.step = stages.length - 1 then fo
          else stepOutputStr inv.input inv.pass inv.step) ∧
      ∀ inv1 ∈ (runCore exec stages ii fo R last0).1,
        ∀ inv2 ∈ (runCore exec stages ii fo R last0).1,
          inv1.step ≠ stages.length - 1 → inv2.step ≠ stages.length - 1 →
          inv1.output = inv2.output →
          inv1.pass = inv2.pass ∧ inv1.step = inv2.step := by
  constructor
  · intro inv hinv
    obtain ⟨r', _, _, hmem⟩ := runPasses_mem exec stages stages.length ii fo
      R 0 last0 (by simp) inv hinv
    exact (runStages_output_of_input exec fo r' stages.length stages 0 _
      inv hmem).2
  · intro inv1 hinv1 inv2 hinv2 hne1 hne2 heq
    obtain ⟨r1, _, _, hmem1⟩ := runPasses_mem exec stages stages.length ii fo
      R 0 last0 (by simp) inv1 hinv1
    obtain ⟨r2, _, _, hmem2⟩ := runPasses_mem exec stages stages.length ii fo
      R 0 last0 (by simp) inv2 hinv2
    obtain ⟨hp1, _, _, hout1⟩ := runStages_output_spec exec fo r1 stages.length
      stages 0 _ (by simp) inv1 hmem1
    obtain ⟨hp2, _, _, hout2⟩ := runStages_output_spec exec fo r2 stages.length
      stages 0 _ (by simp) inv2 hmem2
    rw [hout1 hne1, hout2 hne2] at heq
    have hch1 : segsCat r1 0 (inv1.step + 1 - 0) = segChain r1 inv1.step := by
      simp [segChain]
    have hch2 : segsCat r2 0 (inv2.step + 1 - 0) = segChain r2 inv2.step := by
      simp [segChain]
    rw [hch1, hch2] at heq
    obtain ⟨hr, hs⟩ := intermediate_path_inj _ _ _ _ _ _ heq
    subst hp1
    subst hp2
    exact ⟨hr, hs⟩

/-- Witness for C7: a successful one-stage, one-pass run; its only
invocation is the last stage of the pass and writes to the final output. -/
theorem run_output_path_spec_witness :
    ((⟨0, 0, stageA.path, js "in.wav", js "out.wav", stageA.params⟩ :
        Invocation) ∈
      (runCore (fun _ _ => true) [stageA] (js "in.wav") (js "out.wav") 1
          none).1) ∧
      (⟨0, 0, stageA.path, js "in.wav", js "out.wav", stageA.params⟩ :
          Invocation).output =
        if (⟨0, 0, stageA.path, js "in.wav", js "out.wav", stageA.params⟩ :
            Invocation).step = [stageA].length - 1 then js "out.wav"
        else stepOutputStr (js "in.wav") 0 0 := by
  have hmem : (⟨0, 0, stageA.path, js "in.wav", js "out.wav", stageA.params⟩ :
      Invocation) ∈
      (runCore (fun _ _ => true) [stageA] (js "in.wav") (js "out.wav") 1
        none).1 := by
    simp [runCore, runPasses, runStages]
  exact ⟨hmem, (run_output_path_spec (fun _ _ => true) [stageA] (js "in.wav")
      (js "out.wav") 1 none).1 _ hmem⟩

/-- Counterexample to C7 as stated: in a one-stage two-pass fully successful
run, the invocation of pass 0 (not the last pass) already writes to the
run's final output path, so "final output iff last stage AND last pass"
fails. -/
theorem run_output_path_counterexample :
    ∃ inv ∈ (runCore (fun _ _ => true) [stageA] (js "in.wav") (js "out.wav")
        2 none).1,
      inv.pass = 0 ∧ inv.output = js "out.wav" ∧ 0 ≠ 2 - 1 := by
  refine ⟨⟨0, 0, stageA.path, js "in.wav", js "out.wav", stageA.params⟩,
    ?_, rfl, rfl, by omega⟩
  simp [runCore, runPasses, runStages]

/-! ### Claim C6 -/

/-- C6: `mod` and `remove` reject every out-of-range 1-based index
(index ≤ 0 or index > stage count) with an error and no mutation of the
session; indices are never clamped. -/
theorem mod_remove_reject_out_of_range (sess : Session) (parsedIdx : Int)
    (tokens : List JSStr)
    (h : parsedIdx ≤ 0 ∨ parsedIdx > sess.pipeline.length) :
    mod sess parsedIdx tokens = (sess, false) ∧
      remove sess parsedIdx = (sess, false) := by
  have hc : parsedIdx - 1 < 0 ∨ parsedIdx - 1 ≥ (sess.pipeline.length : Int) := by
    omega
  refine ⟨?_, ?_⟩
  · unfold mod
    by_cases ht : tokens = []
    · rw [if_pos ht]
    · rw [if_neg ht, if_pos hc]
  · unfold remove
    rw [if_pos hc]

/-- Witness for C6 at index 0 on a one-stage session. -/
theorem mod_remove_reject_out_of_range_witness :
    ((0 : Int) ≤ 0 ∨ (0 : Int) > sessA.pipeline.length) ∧
      (mod sessA 0 [js "a:1"] = (sessA, false) ∧
        remove sessA 0 = (sessA, false)) :=
  ⟨Or.inl (by decide),
    mod_remove_reject_out_of_range sessA 0 [js "a:1"] (Or.inl (by decide))⟩

/-! ### Claim C8 -/

/-- Counterexample to C8 as stated: a session whose default input is the empty
string (reachable via `in` with a doubled space) does not survive the
save/load round trip — `loadState` turns `""` into `null` via `inf || null`. -/
theorem save_load_not_identity :
    loadState (saveState ⟨[], some [], none⟩) ≠
      (⟨[], some [], none⟩ : Session) := by
  decide

/-- C8 (amended): save followed by load is the identity on every session whose
optional input and last-output paths are not the empty string. -/
theorem save_load_roundtrip (sess : Session)
    (h1 : sess.inputFile ≠ some []) (h2 : sess.lastOutput ≠ some []) :
    loadState (saveState sess) = sess := by
  obtain ⟨pl, inf, out⟩ := sess
  simp only [loadState, saveState, Option.getD]
  cases inf with
  | none => cases out <;> simp_all [jsOrNull]
  | some s => cases out <;> simp_all [jsOrNull]

/-- Witness for C8 on a concrete session. -/
theorem save_load_roundtrip_witness :
    loadState (saveState ⟨[stageA], some (js "in.wav"), none⟩) =
      (⟨[stageA], some (js "in.wav"), none⟩ : Session) :=
  save_load_roundtrip _ (by decide) (by decide)

/-! ### Claim C10 -/

/-- C10: for an in-range index and non-empty token list, `mod` joins all
tokens into a single space-separated binding, so the stage holds exactly one
binding afterwards, whereas `add` stores the token list itself (one binding,
hence one `--param` argument, per token). -/
theorem mod_joins_tokens_add_keeps_tokens (sess : Session) (plug : PluginRow)
    (parsedIdx : Int) (tokens : List JSStr)
    (hlo : 1 ≤ parsedIdx) (hhi : parsedIdx ≤ sess.pipeline.length)
    (ht : tokens ≠ []) :
    (((mod sess parsedIdx tokens).1.pipeline[(parsedIdx - 1).toNat]?).map
        Stage.params = some [List.intercalate (js " ") tokens]) ∧
      ((add sess plug tokens).pipeline.getLast?).map Stage.params =
        some tokens := by
  constructor
  · have hnc : ¬(parsedIdx - 1 < 0 ∨ parsedIdx - 1 ≥ (sess.pipeline.length : Int)) := by
      omega
    have hlt : (parsedIdx - 1).toNat < sess.pipeline.length := by omega
    unfold mod
    rw [if_neg ht, if_neg hnc]
    have hget : sess.pipeline[(parsedIdx - 1).toNat]? =
        some (sess.pipeline.get ⟨(parsedIdx - 1).toNat, hlt⟩) :=
      List.getElem?_eq_getElem hlt
    simp only [hget]
    rw [List.getElem?_set_eq_of_lt _ (by simpa using hlt)]
    rfl
  · simp [add]

/-- Witness for C10 at index 1 with two tokens. -/
theorem mod_joins_tokens_add_keeps_tokens_witness :
    ((((mod sessA 1 [js "a:1", js "b:2"]).1.pipeline[((1 : Int) - 1).toNat]?).map
        Stage.params = some [List.intercalate (js " ") [js "a:1", js "b:2"]]) ∧
      ((add sessA plugRowA [js "a:1", js "b:2"]).pipeline.getLast?).map
          Stage.params = some [js "a:1", js "b:2"]) :=
  mod_joins_tokens_add_keeps_tokens sessA plugRowA 1 [js "a:1", js "b:2"]
    (by decide) (by decide) (by decide)

/-! ### Parser lemmas -/

/-- A line failing the header test has no header match. -/
theorem headerMatch_eq_none {l : JSStr} (h : headerTest l = false) :
    headerMatch l = none := by
  simp [headerMatch, h]

/-- A line whose head is not a digit is no header line. -/
theorem headerTest_cons_false (c : Char) (t : JSStr) (hc : c.isDigit = false) :
    headerTest (c :: t) = false := by
  have h1 : List.takeWhile Char.isDigit (c :: t) = [] :=
    List.takeWhile_cons_of_neg (by simp [hc])
  simp [headerTest, h1]

/-- Recognized metadata lines are not header lines. -/
theorem headerTest_false_of_isMeta {l : JSStr} (h : isMeta l = true) :
    headerTest l = false := by
  have hsplit : (js "Values:" <+: l ∨ js "Default:" <+: l) ∨
      js "Supports text values:" <+: l := by
    simpa [isMeta, Bool.or_eq_true] using h
  rcases hsplit with (hp | hp) | hp
  · obtain ⟨t, ht⟩ := hp
    have hV : js "Values:" = 'V' :: js "alues:" := by decide
    rw [hV] at ht
    rw [← ht, List.cons_append]
    exact headerTest_cons_false 'V' _ (by decide)
  · obtain ⟨t, ht⟩ := hp
    have hD : js "Default:" = 'D' :: js "efault:" := by decide
    rw [hD] at ht
    rw [← ht, List.cons_append]
    exact headerTest_cons_false 'D' _ (by decide)
  · obtain ⟨t, ht⟩ := hp
    have hS : js "Supports text values:" = 'S' :: js "upports text values:" := by
      decide
    rw [hS] at ht
    rw [← ht, List.cons_append]
    exact headerTest_cons_false 'S' _ (by decide)

/-- Unrecognized lines have no effect whatsoever on the seed parser: the
result only depends on the header/`Values:`/`Default:` lines. -/
theorem parseSeedAux_filter :
    ∀ (lines : List JSStr) (acc : List SeedParam),
      parseSeedAux lines acc = parseSeedAux (lines.filter recognizedSeed) acc := by
  intro lines
  induction lines with
  | nil => intro acc; rfl
  | cons l ls ih =>
    intro acc
    cases hb : headerTest l with
    | true =>
      have hr : recognizedSeed l = true := by simp [recognizedSeed, hb]
      rw [List.filter_cons_of_pos hr]
      simp only [parseSeedAux, hb, reduceIte]
      cases hm : headerMatch l with
      | some p => simp only [ih]
      | none => rfl
    | false =>
      cases hv : (js "Values:").isPrefixOf l with
      | true =>
        have hr : recognizedSeed l = true := by simp [recognizedSeed, hv]
        rw [List.filter_cons_of_pos hr]
        simp only [parseSeedAux, hb, hv, Bool.false_eq_true, reduceIte]
        cases acc with
        | nil => rfl
        | cons cur prev => simp only [ih]
      | false =>
        cases hd : (js "Default:").isPrefixOf l with
        | true =>
          have hr : recognizedSeed l = true := by simp [recognizedSeed, hd]
          rw [List.filter_cons_of_pos hr]
          simp only [parseSeedAux, hb, hv, hd, Bool.false_eq_true, reduceIte]
          cases acc with
          | nil => rfl
          | cons cur prev => simp only [ih]
        | false =>
          have hr : recognizedSeed l = false := by
            simp [recognizedSeed, hb, hv, hd]
          rw [List.filter_cons_of_neg (by simp [hr])]
          simp only [parseSeedAux, hb, hv, hd, Bool.false_eq_true, reduceIte]
          exact ih acc

/-- On well-formed line sequences the seed parser succeeds and produces one
record per header line, in header order, keyed by the header's ordinal and
name. -/
theorem parseSeedAux_spec :
    ∀ (lines : List JSStr) (acc : List SeedParam),
      wfAux lines (!acc.isEmpty) = true →
      ∃ ps, parseSeedAux lines acc = .ok ps ∧
        ps.map seedKey = acc.reverse.map seedKey ++ hdrKeys lines := by
  intro lines
  induction lines with
  | nil =>
    intro acc _
    exact ⟨acc.reverse, rfl, by simp [hdrKeys]⟩
  | cons l ls ih =>
    intro acc hwf
    cases hb : headerTest l with
    | true =>
      have hwf2 : (headerMatch l).isSome = true ∧ wfAux ls true = true := by
        rw [wfAux] at hwf
        simpa [hb] using hwf
      obtain ⟨hsome, hrec⟩ := hwf2
      obtain ⟨p, hm⟩ := Option.isSome_iff_exists.mp hsome
      have hflag : wfAux ls (!((⟨p.1, p.2, [], []⟩ : SeedParam) :: acc).isEmpty) =
          true := hrec
      obtain ⟨ps, hok, hkeys⟩ := ih _ hflag
      refine ⟨ps, ?_, ?_⟩
      · simp only [parseSeedAux, hb, reduceIte, hm]
        exact hok
      · rw [hkeys]
        simp [hdrKeys, List.filterMap_cons, hm, seedKey]
    | false =>
      have hnone := headerMatch_eq_none hb
      have hdr_skip : hdrKeys (l :: ls) = hdrKeys ls := by
        simp [hdrKeys, List.filterMap_cons, hnone]
      cases hv : (js "Values:").isPrefixOf l with
      | true =>
        have hMeta : isMeta l = true := by simp [isMeta, hv]
        have hwf2 : (!acc.isEmpty) = true ∧ wfAux ls (!acc.isEmpty) = true := by
          rw [wfAux] at hwf
          simpa [hb, hMeta] using hwf
        obtain ⟨hseen, hrec⟩ := hwf2
        cases acc with
        | nil => simp at hseen
        | cons cur prev =>
          obtain ⟨ps, hok, hkeys⟩ := ih
            ({ cur with
                values := (l.drop (js "Values:").length).dropWhile
                  Char.isWhitespace } :: prev) hrec
          refine ⟨ps, ?_, ?_⟩
          · simp only [parseSeedAux, hb, hv, Bool.false_eq_true, reduceIte]
            exact hok
          · rw [hkeys, hdr_skip]
            simp [seedKey]
      | false =>
        cases hd : (js "Default:").isPrefixOf l with
        | true =>
          have hMeta : isMeta l = true := by simp [isMeta, hd]
          have hwf2 : (!acc.isEmpty) = true ∧ wfAux ls (!acc.isEmpty) = true := by
            rw [wfAux] at hwf
            simpa [hb, hMeta] using hwf
          obtain ⟨hseen, hrec⟩ := hwf2
          cases acc with
          | nil => simp at hseen
          | cons cur prev =>
            obtain ⟨ps, hok, hkeys⟩ := ih
              ({ cur with
                  default_value := (l.drop (js "Default:").length).dropWhile
                    Char.isWhitespace } :: prev) hrec
            refine ⟨ps, ?_, ?_⟩
            · simp only [parseSeedAux, hb, hv, hd, Bool.false_eq_true, reduceIte]
              exact hok
            · rw [hkeys, hdr_skip]
              simp [seedKey]
        | false =>
          have hrec : wfAux ls (!acc.isEmpty) = true := by
            rw [wfAux] at hwf
            by_cases hM : isMeta l = true
            · have := by simpa [hb, hM] using hwf
              exact this.2
            · have hMf : isMeta l = false := by
                cases hmm : isMeta l
                · rfl
                · exact absurd hmm hM
              simpa [hb, hMf] using hwf
          obtain ⟨ps, hok, hkeys⟩ := ih acc hrec
          refine ⟨ps, ?_, ?_⟩
          · simp only [parseSeedAux, hb, hv, hd, Bool.false_eq_true, reduceIte]
            exact hok
          · rw [hkeys, hdr_skip]

/-! ### Trim and split facts -/

/-- `dropWhile` is idempotent. -/
theorem dropWhile_idem (p : Char → Bool) :
    ∀ l : JSStr, (l.dropWhile p).dropWhile p = l.dropWhile p := by
  intro l
  induction l with
  | nil => rfl
  | cons c cs ih =>
    by_cases hc : p c
    · rw [List.dropWhile_cons_of_pos hc, ih]
    · rw [List.dropWhile_cons_of_neg hc, List.dropWhile_cons_of_neg hc]

/-- If `dropWhile` fixes `A ++ B` it fixes the prefix `A`. -/
theorem dropWhile_fix_of_append (p : Char → Bool) (A B : JSStr)
    (h : (A ++ B).dropWhile p = A ++ B) : A.dropWhile p = A := by
  cases A with
  | nil => rfl
  | cons a A' =>
    by_cases ha : p a
    · exfalso
      rw [List.cons_append, List.dropWhile_cons_of_pos ha] at h
      have hle : (List.dropWhile p (A' ++ B)).length ≤ (A' ++ B).length :=
        (List.dropWhile_suffix p).length_le
      rw [h] at hle
      simp at hle
    · exact List.dropWhile_cons_of_neg ha

/-- A prefix of a `dropWhile`-fixed list is itself fixed. -/
theorem dropWhile_fix_of_prefix (p : Char → Bool) {A u : JSStr}
    (hu : u.dropWhile p = u) (hp : A <+: u) : A.dropWhile p = A := by
  obtain ⟨t, ht⟩ := hp
  rw [← ht] at hu
  exact dropWhile_fix_of_append p A t hu

/-- The characteristic fixpoints of `trimStr`. -/
theorem trimStr_fix (l : JSStr) :
    (trimStr l).dropWhile Char.isWhitespace = trimStr l ∧
      (trimStr l).reverse.dropWhile Char.isWhitespace = (trimStr l).reverse := by
  constructor
  · have hpre : trimStr l <+: l.dropWhile Char.isWhitespace := by
      have h0 : (List.dropWhile Char.isWhitespace
          (l.dropWhile Char.isWhitespace).reverse).reverse <+:
          (l.dropWhile Char.isWhitespace).reverse.reverse :=
        List.reverse_prefix.mpr (List.dropWhile_suffix _)
      rw [List.reverse_reverse] at h0
      exact h0
    exact dropWhile_fix_of_prefix _ (dropWhile_idem _ l) hpre
  · rw [trimStr, List.reverse_reverse]
    exact dropWhile_idem _ _

/-- `trimStr` is idempotent. -/
theorem trimStr_idem (l : JSStr) : trimStr (trimStr l) = trimStr l := by
  obtain ⟨h1, h2⟩ := trimStr_fix l
  rw [trimStr, h1, h2, List.reverse_reverse]

/-- A `trimStr`-fixed list is fixed by both one-sided trims. -/
theorem trimStr_eq_self_parts {l : JSStr} (h : trimStr l = l) :
    l.dropWhile Char.isWhitespace = l ∧
      l.reverse.dropWhile Char.isWhitespace = l.reverse := by
  obtain ⟨h1, h2⟩ := trimStr_fix l
  rw [h] at h1 h2
  exact ⟨h1, h2⟩

/-- `dropWhile` as a `drop`. -/
theorem dropWhile_eq_drop (p : Char → Bool) :
    ∀ l : JSStr, l.dropWhile p = l.drop (l.takeWhile p).length := by
  intro l
  induction l with
  | nil => rfl
  | cons c cs ih =>
    by_cases hc : p c
    · rw [List.dropWhile_cons_of_pos hc, List.takeWhile_cons_of_pos hc]
      simpa using ih
    · rw [List.dropWhile_cons_of_neg hc, List.takeWhile_cons_of_neg hc]
      rfl

/-- For a list with no trailing whitespace, `trimStr` is the left trim. -/
theorem trimStr_eq_dropWhile {r : JSStr}
    (h : r.reverse.dropWhile Char.isWhitespace = r.reverse) :
    trimStr r = r.dropWhile Char.isWhitespace := by
  have hpre : (r.dropWhile Char.isWhitespace).reverse <+: r.reverse := by
    exact List.reverse_prefix.mpr (List.dropWhile_suffix _)
  have hfix := dropWhile_fix_of_prefix _ h hpre
  rw [trimStr, hfix, List.reverse_reverse]

/-- `jsSplit` never returns the empty list of fields. -/
theorem jsSplit_ne_nil (c : Char) : ∀ l : JSStr, jsSplit c l ≠ [] := by
  intro l
  cases l with
  | nil => simp [jsSplit]
  | cons x xs =>
    rw [jsSplit]
    by_cases hx : x = c <;> simp [hx]

/-- Splitting after a separator-free prefix. -/
theorem jsSplit_prefix (c : Char) :
    ∀ (ds : JSStr), (∀ d ∈ ds, d ≠ c) →
      ∀ r : JSStr, jsSplit c (ds ++ c :: r) = ds :: jsSplit c r := by
  intro ds
  induction ds with
  | nil =>
    intro _ r
    simp [jsSplit]
  | cons d ds' ih =>
    intro hds r
    have hd : d ≠ c := hds d (List.mem_cons_self d ds')
    have := ih (fun x hx => hds x (List.mem_cons_of_mem d hx)) r
    rw [List.cons_append, jsSplit]
    simp [hd, this]

/-- Joining what was split restores the string. -/
theorem intercalate_jsSplit (c : Char) :
    ∀ l : JSStr, List.intercalate [c] (jsSplit c l) = l := by
  have hsingle : ∀ x : JSStr, List.intercalate [c] [x] = x := by
    intro x
    simp [List.intercalate]
  have hcons : ∀ (x : JSStr) (y t), List.intercalate [c] (x :: y :: t) =
      x ++ [c] ++ List.intercalate [c] (y :: t) := by
    intro x y t
    simp [List.intercalate, List.intersperse_cons₂, List.append_assoc]
  intro l
  induction l with
  | nil => simp [jsSplit, hsingle]
  | cons x xs ih =>
    rw [jsSplit]
    by_cases hx : x = c
    · subst hx
      rw [if_pos rfl]
      cases hsp : jsSplit x xs with
      | nil => exact absurd hsp (jsSplit_ne_nil x xs)
      | cons h' t' =>
        rw [hcons]
        rw [hsp] at ih
        simp [ih]
    · rw [if_neg hx]
      cases hsp : jsSplit c xs with
      | nil => exact absurd hsp (jsSplit_ne_nil c xs)
      | cons h' t' =>
        rw [hsp] at ih
        cases t' with
        | nil =>
          simp only [List.headD, List.tail]
          rw [hsingle] at ih ⊢
          rw [ih]
        | cons t'' ts =>
          simp only [List.headD, List.tail]
          rw [hcons] at ih ⊢
          simp only [List.cons_append, List.append_assoc] at ih ⊢
          rw [ih]

/-- Anatomy of a header line: a non-empty digit prefix, a colon, a rest. -/
theorem headerTest_shape {l : JSStr} (hb : headerTest l = true) :
    ∃ tw r, l = tw ++ ':' :: r ∧ tw ≠ [] ∧ (∀ d ∈ tw, d.isDigit) ∧
      l.takeWhile Char.isDigit = tw ∧ l.dropWhile Char.isDigit = ':' :: r := by
  rw [headerTest] at hb
  obtain ⟨h1, h2⟩ := Bool.and_eq_true_iff.mp hb
  have htwne : l.takeWhile Char.isDigit ≠ [] := by
    intro hnil
    rw [hnil] at h1
    simp at h1
  have hhead : (l.dropWhile Char.isDigit).head? = some ':' := by
    simpa using h2
  obtain ⟨r, hdw⟩ := List.head?_eq_some_iff.mp hhead
  refine ⟨l.takeWhile Char.isDigit, r, ?_, htwne, ?_, rfl, hdw⟩
  · rw [← hdw, List.takeWhile_append_dropWhile]
  · intro x hx
    exact List.mem_takeWhile_imp hx

/-- On a trimmed header line, the scan parser's split/join/trim header
processing computes exactly the regex match of the seed parser. -/
theorem scanHeaderKey_eq {l : JSStr} (htrim : trimStr l = l)
    (p : Nat × JSStr) (hm : headerMatch l = some p) :
    (jsParseIntNat ((jsSplit ':' l).headD []),
      trimStr (List.intercalate (js ":") (jsSplit ':' l).tail)) = p := by
  have hb : headerTest l = true := by
    by_contra hbf
    have : headerTest l = false := by
      cases hx : headerTest l
      · rfl
      · exact absurd hx hbf
    rw [headerMatch_eq_none this] at hm
    exact Option.noConfusion hm
  obtain ⟨tw, r, hl, htwne, htwdig, htw, hdw⟩ := headerTest_shape hb
  rw [headerMatch, if_pos hb, hdw, htw] at hm
  have hm2 : (if r.isEmpty = true then (none : Option (Nat × JSStr))
      else some (strVal tw, r.drop (min (r.takeWhile Char.isWhitespace).length
        (r.length - 1)))) = some p := hm
  have hr : r ≠ [] := by
    intro hrnil
    rw [hrnil] at hm2
    simp at hm2
  rw [if_neg (by simp [hr])] at hm2
  have hp := Option.some.inj hm2
  have hdigne : ∀ d ∈ tw, d ≠ ':' := by
    intro d hd heq
    have := htwdig d hd
    rw [heq] at this
    exact absurd this (by decide)
  have hsplit : jsSplit ':' l = tw :: jsSplit ':' r := by
    rw [hl]
    exact jsSplit_prefix ':' tw hdigne r
  rw [hsplit]
  simp only [List.headD, List.tail]
  have hjs : js ":" = [':'] := by decide
  rw [hjs, intercalate_jsSplit]
  have hparse : jsParseIntNat tw = strVal tw := by
    rw [jsParseIntNat, List.takeWhile_eq_self_iff.mpr htwdig]
  have hnotrail : r.reverse.dropWhile Char.isWhitespace = r.reverse := by
    have hfix := (trimStr_eq_self_parts htrim).2
    rw [hl] at hfix
    have hrev : (tw ++ ':' :: r).reverse =
        r.reverse ++ ([':'] ++ tw.reverse) := by
      simp [List.reverse_append, List.append_assoc]
    rw [hrev] at hfix
    exact dropWhile_fix_of_append _ _ _ hfix
  have hws : (r.takeWhile Char.isWhitespace).length < r.length := by
    by_contra hge
    have hle : (r.takeWhile Char.isWhitespace).length ≤ r.length :=
      (List.takeWhile_prefix _).length_le
    have heq : (r.takeWhile Char.isWhitespace).length = r.length := by omega
    have htwr : r.takeWhile Char.isWhitespace = r :=
      (List.takeWhile_prefix _).eq_of_length heq
    have hallws : ∀ x ∈ r, Char.isWhitespace x :=
      List.takeWhile_eq_self_iff.mp htwr
    have : r.reverse.dropWhile Char.isWhitespace = [] :=
      List.dropWhile_eq_nil_iff.mpr fun x hx =>
        hallws x (List.mem_reverse.mp hx)
    rw [hnotrail] at this
    exact hr (by simpa using this)
  have hmin : min (r.takeWhile Char.isWhitespace).length (r.length - 1) =
      (r.takeWhile Char.isWhitespace).length := by omega
  have hdrop : r.drop (min (r.takeWhile Char.isWhitespace).length
      (r.length - 1)) = r.dropWhile Char.isWhitespace := by
    rw [hmin, dropWhile_eq_drop]
  rw [← hp, hparse, trimStr_eq_dropWhile hnotrail, ← hdrop]

/-- Unrecognized lines have no effect whatsoever on the scan parser. -/
theorem scanParseAux_filter :
    ∀ (lines : List JSStr) (cur : Option ScanParam) (acc : List ScanParam),
      scanParseAux lines cur acc =
        scanParseAux (lines.filter recognizedScan) cur acc := by
  intro lines
  induction lines with
  | nil => intro cur acc; rfl
  | cons l ls ih =>
    intro cur acc
    cases hb : headerTest l with
    | true =>
      have hr : recognizedScan l = true := by simp [recognizedScan, hb]
      rw [List.filter_cons_of_pos hr]
      simp only [scanParseAux, hb, reduceIte]
      exact ih _ _
    | false =>
      cases hv : (js "Values:").isPrefixOf l with
      | true =>
        have hr : recognizedScan l = true := by
          simp [recognizedScan, isMeta, hv]
        rw [List.filter_cons_of_pos hr]
        simp only [scanParseAux, hb, hv, Bool.false_eq_true, reduceIte]
        cases cur with
        | none => rfl
        | some c => exact ih _ _
      | false =>
        cases hd : (js "Default:").isPrefixOf l with
        | true =>
          have hr : recognizedScan l = true := by
            simp [recognizedScan, isMeta, hd]
          rw [List.filter_cons_of_pos hr]
          simp only [scanParseAux, hb, hv, hd, Bool.false_eq_true, reduceIte]
          cases cur with
          | none => rfl
          | some c => exact ih _ _
        | false =>
          cases hs : (js "Supports text values:").isPrefixOf l with
          | true =>
            have hr : recognizedScan l = true := by
              simp [recognizedScan, isMeta, hs]
            rw [List.filter_cons_of_pos hr]
            simp only [scanParseAux, hb, hv, hd, hs, Bool.false_eq_true,
              reduceIte]
            cases cur with
            | none => rfl
            | some c => exact ih _ _
          | false =>
            have hr : recognizedScan l = false := by
              simp [recognizedScan, isMeta, hb, hv, hd, hs]
            rw [List.filter_cons_of_neg (by simp [hr])]
            simp only [scanParseAux, hb, hv, hd, hs, Bool.false_eq_true,
              reduceIte]
            exact ih _ _

/-- On well-formed trimmed line sequences the scan parser succeeds and
produces one record per header line, in header order, with the same
(ordinal, name) keys as the regex of the seed parser. -/
theorem scanParseAux_spec :
    ∀ (lines : List JSStr) (cur : Option ScanParam) (acc : List ScanParam),
      (∀ l ∈ lines, trimStr l = l) →
      wfAux lines cur.isSome = true →
      ∃ ps, scanParseAux lines cur acc = .ok ps ∧
        ps.map scanKey =
          acc.map scanKey ++ cur.toList.map scanKey ++ hdrKeys lines := by
  intro lines
  induction lines with
  | nil =>
    intro cur acc _ _
    exact ⟨acc ++ cur.toList, rfl, by simp [hdrKeys]⟩
  | cons l ls ih =>
    intro cur acc htrims hwf
    have htl : trimStr l = l := htrims l (List.mem_cons_self l ls)
    have htls : ∀ x ∈ ls, trimStr x = x := fun x hx =>
      htrims x (List.mem_cons_of_mem l hx)
    cases hb : headerTest l with
    | true =>
      have hwf2 : (headerMatch l).isSome = true ∧ wfAux ls true = true := by
        rw [wfAux] at hwf
        simpa [hb] using hwf
      obtain ⟨hsome, hrec⟩ := hwf2
      obtain ⟨p, hm⟩ := Option.isSome_iff_exists.mp hsome
      obtain ⟨ps, hok, hkeys⟩ := ih
        (some ⟨jsParseIntNat ((jsSplit ':' l).headD []),
          trimStr (List.intercalate (js ":") (jsSplit ':' l).tail),
          none, none, none⟩) (acc ++ cur.toList) htls hrec
      refine ⟨ps, ?_, ?_⟩
      · simp only [scanParseAux, hb, reduceIte]
        exact hok
      · rw [hkeys]
        have hkey : scanKey ⟨jsParseIntNat ((jsSplit ':' l).headD []),
            trimStr (List.intercalate (js ":") (jsSplit ':' l).tail),
            none, none, none⟩ = p := scanHeaderKey_eq htl p hm
        have hkey2 : scanKey ⟨jsParseIntNat ((jsSplit ':' l).head?.getD []),
            trimStr (List.intercalate (js ":") (jsSplit ':' l).tail),
            none, none, none⟩ = p := by
          simpa [List.headD_eq_head?_getD] using hkey
        simp [hdrKeys, List.filterMap_cons, hm, hkey2, List.append_assoc]
    | false =>
      have hnone := headerMatch_eq_none hb
      have hdr_skip : hdrKeys (l :: ls) = hdrKeys ls := by
        simp [hdrKeys, List.filterMap_cons, hnone]
      cases hv : (js "Values:").isPrefixOf l with
      | true =>
        have hMeta : isMeta l = true := by simp [isMeta, hv]
        have hwf2 : cur.isSome = true ∧ wfAux ls cur.isSome = true := by
          rw [wfAux] at hwf
          simpa [hb, hMeta] using hwf
        obtain ⟨hseen, hrec⟩ := hwf2
        cases cur with
        | none => simp at hseen
        | some c =>
          obtain ⟨ps, hok, hkeys⟩ := ih
            (some { c with
                values := some (trimStr (replaceFirst (js "Values:") [] l)) })
            acc htls hrec
          refine ⟨ps, ?_, ?_⟩
          · simp only [scanParseAux, hb, hv, Bool.false_eq_true, reduceIte]
            exact hok
          · rw [hkeys, hdr_skip]
            simp [scanKey]
      | false =>
        cases hd : (js "Default:").isPrefixOf l with
        | true =>
          have hMeta : isMeta l = true := by simp [isMeta, hd]
          have hwf2 : cur.isSome = true ∧ wfAux ls cur.isSome = true := by
            rw [wfAux] at hwf
            simpa [hb, hMeta] using hwf
          obtain ⟨hseen, hrec⟩ := hwf2
          cases cur with
          | none => simp at hseen
          | some c =>
            obtain ⟨ps, hok, hkeys⟩ := ih
              (some { c with
                  default_value :=
                    some (trimStr (replaceFirst (js "Default:") [] l)) })
              acc htls hrec
            refine ⟨ps, ?_, ?_⟩
            · simp only [scanParseAux, hb, hv, hd, Bool.false_eq_true,
                reduceIte]
              exact hok
            · rw [hkeys, hdr_skip]
              simp [scanKey]
        | false =>
          cases hs : (js "Supports text values:").isPrefixOf l with
          | true =>
            have hMeta : isMeta l = true := by simp [isMeta, hs]
            have hwf2 : cur.isSome = true ∧ wfAux ls cur.isSome = true := by
              rw [wfAux] at hwf
              simpa [hb, hMeta] using hwf
            obtain ⟨hseen, hrec⟩ := hwf2
            cases cur with
            | none => simp at hseen
            | some c =>
              obtain ⟨ps, hok, hkeys⟩ := ih
                (some { c with
                    supports_text :=
                      some (containsSub (js "true") (l.map Char.toLower)) })
                acc htls hrec
              refine ⟨ps, ?_, ?_⟩
              · simp only [scanParseAux, hb, hv, hd, hs, Bool.false_eq_true,
                  reduceIte]
                exact hok
              · rw [hkeys, hdr_skip]
                simp [scanKey]
          | false =>
            have hrec : wfAux ls cur.isSome = true := by
              rw [wfAux] at hwf
              by_cases hM : isMeta l = true
              · have := by simpa [hb, hM] using hwf
                exact this.2
              · have hMf : isMeta l = false := by
                  cases hmm : isMeta l
                  · rfl
                  · exact absurd hmm hM
                simpa [hb, hMf] using hwf
            obtain ⟨ps, hok, hkeys⟩ := ih cur acc htls hrec
            refine ⟨ps, ?_, ?_⟩
            · simp only [scanParseAux, hb, hv, hd, hs, Bool.false_eq_true,
                reduceIte]
              exact hok
            · rw [hkeys, hdr_skip]

/-- Preprocessed lines are trim-fixed. -/
theorem preprocess_trimmed (output : JSStr) :
    ∀ l ∈ preprocess output, trimStr l = l := by
  intro l hl
  rw [preprocess] at hl
  obtain ⟨hmem, _⟩ := List.mem_filter.mp hl
  obtain ⟨x, _, hx⟩ := List.mem_map.mp hmem
  rw [← hx]
  exact trimStr_idem x

/-! ### Claim C5 -/

/-- C5: for every well-formed report (every recognized metadata line preceded
by a header line, every header line carrying a non-empty name), both parsers
— `parseParameters` of src/seed.js and the parse loop of `listParameters` of
src/unnamed/part_000 — succeed and return exactly K records, one per header
line and in header order, keyed by the headers' ordinal and trimmed name; a
well-formed report with no header lines yields the empty sequence rather
than a failure; and unrecognized non-blank lines have no effect at all on
either parser's output. -/
theorem report_grammar (output : JSStr) (hwf : wellFormed output = true) :
    (∃ ps, parseParameters output = .ok ps ∧
        ps.map seedKey = hdrKeys (preprocess output) ∧
        ps.length = (hdrKeys (preprocess output)).length) ∧
      ((listParametersResult output).map scanKey = hdrKeys (preprocess output) ∧
        (listParametersResult output).length =
          (hdrKeys (preprocess output)).length) ∧
      (hdrKeys (preprocess output) = [] →
        parseParameters output = .ok [] ∧ listParametersResult output = []) ∧
      parseParameters output =
        parseSeedAux ((preprocess output).filter recognizedSeed) [] ∧
      scanParseAux (preprocess output) none [] =
        scanParseAux ((preprocess output).filter recognizedScan) none [] := by
  have htr := preprocess_trimmed output
  have hwf' : wfAux (preprocess output) false = true := hwf
  obtain ⟨ps, hok, hkeys⟩ := parseSeedAux_spec (preprocess output) [] hwf'
  have hkeys' : ps.map seedKey = hdrKeys (preprocess output) := by
    simpa using hkeys
  obtain ⟨qs, hok2, hkeys2⟩ := scanParseAux_spec (preprocess output) none []
    htr hwf'
  have hkeys2' : qs.map scanKey = hdrKeys (preprocess output) := by
    simpa using hkeys2
  have hlpr : listParametersResult output = qs := by
    rw [listParametersResult, hok2]
  refine ⟨⟨ps, hok, hkeys', ?_⟩, ⟨?_, ?_⟩, ?_, ?_, ?_⟩
  · rw [← hkeys', List.length_map]
  · rw [hlpr]
    exact hkeys2'
  · rw [hlpr, ← hkeys2', List.length_map]
  · intro h0
    constructor
    · have : ps = [] := by
        rw [← List.map_eq_nil_iff (f := seedKey), hkeys', h0]
      rw [parseParameters, hok, this]
    · have : qs = [] := by
        rw [← List.map_eq_nil_iff (f := scanKey), hkeys2', h0]
      rw [hlpr, this]
  · exact parseSeedAux_filter (preprocess output) []
  · exact scanParseAux_filter (preprocess output) none []

/-- Witness for C5 on a concrete report with two headers, one metadata line
and one unrecognized line. -/
theorem report_grammar_witness :
    wellFormed (js "0: Gain\nValues: 1 to 2\nJunk\n1: Mix") = true ∧
      (∃ ps, parseParameters (js "0: Gain\nValues: 1 to 2\nJunk\n1: Mix") =
          .ok ps ∧
        ps.map seedKey =
          hdrKeys (preprocess (js "0: Gain\nValues: 1 to 2\nJunk\n1: Mix")) ∧
        ps.length =
          (hdrKeys (preprocess
            (js "0: Gain\nValues: 1 to 2\nJunk\n1: Mix"))).length) :=
  ⟨by decide, (report_grammar _ (by decide)).1⟩

/-! ### Catalog lemmas -/

/-- When the plugin is already cataloged under the same display name, the
upsert is the identity on the database and returns the stored row's id and
last-scanned time. -/
theorem upsertPlugin_found (db : DB) (path name : JSStr) (row : PluginRow)
    (hfind : db.plugins.find? (fun r => r.path == path) = some row)
    (hname : ∀ r ∈ db.plugins, r.path = path → r.name = name) :
    upsertPlugin db path name = (db, row.id, row.last_scanned) := by
  rw [upsertPlugin, hfind]
  have hmap : (db.plugins.map fun r =>
      if r.path == path then { r with name := name } else r) = db.plugins := by
    have hpt : ∀ r ∈ db.plugins,
        (if r.path == path then { r with name := name } else r) = r := by
      intro r hr
      by_cases hp : r.path = path
      · rw [if_pos (by simpa using hp)]
        have hn := hname r hr hp
        rw [← hn]
      · rw [if_neg (by simpa using hp)]
    exact (List.map_congr_left hpt).trans (List.map_id db.plugins)
  rw [hmap]

/-! ### Claim C3 -/

/-- C3 (amended): the scan loop invokes the external listing contract
exactly once per scan, unconditionally — even when the descriptor's
last-scanned time is non-zero and ≥ the bundle's modification time.  In that
fresh case `savePlugin` then returns `false` (reported as
"unchanged, skipped") and the catalog — parameter rows and plugin rows alike
— is left completely unchanged. -/
theorem scan_skip_spec (db : DB) (pluginPath : JSStr) (mtime now : Nat)
    (stdout : JSStr) (row : PluginRow)
    (hfind : db.plugins.find? (fun r => r.path == pluginPath) = some row)
    (hname : ∀ r ∈ db.plugins, r.path = pluginPath →
      r.name = basenameJS pluginPath)
    (hscanned : row.last_scanned ≠ 0) (hfresh : row.last_scanned ≥ mtime) :
    (seedStep db pluginPath mtime now stdout).2 = 1 ∧
      (seedStep db pluginPath mtime now stdout).1 = db ∧
      (savePlugin db pluginPath (basenameJS pluginPath)
        (listParametersResult stdout) mtime now).2 = false := by
  have hup := upsertPlugin_found db pluginPath (basenameJS pluginPath) row
    hfind hname
  have hsave : ∀ ps : List ScanParam,
      savePlugin db pluginPath (basenameJS pluginPath) ps mtime now =
        (db, false) := by
    intro ps
    rw [savePlugin, hup]
    exact if_pos ⟨hscanned, hfresh⟩
  refine ⟨?_, ?_, ?_⟩
  · rw [seedStep]
    split <;> rfl
  · rw [seedStep]
    split
    · rfl
    · rw [hsave]
  · rw [hsave]

/-- Witness for C3 on `dbA` (scanned at 100, bundle modified at 50). -/
theorem scan_skip_spec_witness :
    (dbA.plugins.find? (fun r => r.path == js "/p/A.vst3") =
        some ⟨1, js "/p/A.vst3", js "A.vst3", 100⟩) ∧
      ((seedStep dbA (js "/p/A.vst3") 50 200 (js "0: G\nValues: 1 to 2")).2 = 1 ∧
        (seedStep dbA (js "/p/A.vst3") 50 200 (js "0: G\nValues: 1 to 2")).1 =
          dbA ∧
        (savePlugin dbA (js "/p/A.vst3") (basenameJS (js "/p/A.vst3"))
          (listParametersResult (js "0: G\nValues: 1 to 2")) 50 200).2 =
          false) :=
  ⟨by decide,
    scan_skip_spec dbA (js "/p/A.vst3") 50 200 (js "0: G\nValues: 1 to 2")
      ⟨1, js "/p/A.vst3", js "A.vst3", 100⟩ (by decide) (by decide)
      (by decide) (by decide)⟩

/-- Counterexample to C3 as stated: with the descriptor fresh
(last-scanned 100 ≥ modification time 50) the scan still performs one
external listing invocation — never zero — before `savePlugin` skips. -/
theorem scan_unchanged_still_invokes :
    (seedStep dbA (js "/p/A.vst3") 50 200 (js "0: G\nValues: 1 to 2")).2 = 1 ∧
      (1 : Nat) ≠ 0 ∧
      (savePlugin dbA (js "/p/A.vst3") (basenameJS (js "/p/A.vst3"))
        (listParametersResult (js "0: G\nValues: 1 to 2")) 50 200).2 =
        false := by
  refine ⟨?_, by decide, by decide⟩
  rw [seedStep]
  split <;> rfl

/-! ### Claim C4 -/

/-- One `INSERT OR REPLACE` replaces exactly the rows with the new record's
ordinal and touches nothing else of that plugin. -/
theorem rowsFor_insertOrReplace (pid : Nat) (db : DB) (p : ScanParam)
    (idx : Nat) :
    rowsFor (insertOrReplaceParam pid db p) pid idx =
      if p.param_index = idx then [toParamRow pid p]
      else rowsFor db pid idx := by
  by_cases hpi : p.param_index = idx
  · subst hpi
    rw [if_pos rfl, rowsFor, insertOrReplaceParam]
    simp only [List.filter_append, List.filter_filter]
    have h1 : db.params.filter (fun r =>
        (r.plugin_id == pid && r.param_index == p.param_index) &&
          !(r.plugin_id == pid && r.param_index == p.param_index)) = [] := by
      apply List.filter_eq_nil_iff.mpr
      intro a _
      simp [Bool.and_not_self]
    rw [h1]
    simp [toParamRow]
  · rw [if_neg hpi, rowsFor, insertOrReplaceParam, rowsFor]
    simp only [List.filter_append, List.filter_filter]
    have h1 : db.params.filter (fun r =>
        (r.plugin_id == pid && r.param_index == idx) &&
          !(r.plugin_id == pid && r.param_index == p.param_index)) =
        db.params.filter (fun r =>
          r.plugin_id == pid && r.param_index == idx) := by
      apply List.filter_congr
      intro a _
      by_cases hk : (a.plugin_id == pid && a.param_index == idx) = true
      · have hidx : a.param_index = idx := by
          have := (Bool.and_eq_true_iff.mp hk).2
          simpa using this
        have : (a.param_index == p.param_index) = false := by
          simp [hidx]
          omega
        simp [hk, this]
      · simp [Bool.eq_false_iff.mpr hk]
    have h2 : List.filter (fun r =>
        r.plugin_id == pid && r.param_index == idx) [toParamRow pid p] = [] := by
      simp [toParamRow, hpi]
    rw [h1, h2, List.append_nil]

/-- Folding the parameter list: the stored rows of each ordinal end up as
the last new record with that ordinal, or stay untouched when the ordinal is
absent from the new set. -/
theorem rowsFor_foldl (pid : Nat) :
    ∀ (ps : List ScanParam) (db : DB) (idx : Nat),
      rowsFor (ps.foldl (insertOrReplaceParam pid) db) pid idx =
        (match lastNew ps idx with
          | some p => [toParamRow pid p]
          | none => rowsFor db pid idx) := by
  intro ps
  induction ps with
  | nil => intro db idx; rfl
  | cons p ps' ih =>
    intro db idx
    rw [List.foldl_cons, ih, lastNew]
    cases hl : lastNew ps' idx with
    | some q => rfl
    | none =>
      rw [rowsFor_insertOrReplace]
      by_cases hpi : p.param_index = idx
      · rw [if_pos hpi]
        have hbeq : (p.param_index == idx) = true := by simpa using hpi
        simp [hbeq]
      · rw [if_neg hpi]
        have hbeq : (p.param_index == idx) = false := by simpa using hpi
        simp [hbeq]

/-- The fold never touches rows of other plugins. -/
theorem rowsFor_foldl_other (pid qid : Nat) (hq : qid ≠ pid) :
    ∀ (ps : List ScanParam) (db : DB) (idx : Nat),
      rowsFor (ps.foldl (insertOrReplaceParam pid) db) qid idx =
        rowsFor db qid idx := by
  intro ps
  induction ps with
  | nil => intro db idx; rfl
  | cons p ps' ih =>
    intro db idx
    rw [List.foldl_cons, ih]
    rw [rowsFor, insertOrReplaceParam, rowsFor]
    simp only [List.filter_append, List.filter_filter]
    have h1 : db.params.filter (fun r =>
        (r.plugin_id == qid && r.param_index == idx) &&
          !(r.plugin_id == pid && r.param_index == p.param_index)) =
        db.params.filter (fun r =>
          r.plugin_id == qid && r.param_index == idx) := by
      apply List.filter_congr
      intro a _
      by_cases hk : (a.plugin_id == qid && a.param_index == idx) = true
      · have hpl : a.plugin_id = qid := by
          have := (Bool.and_eq_true_iff.mp hk).1
          simpa using this
        have : (a.plugin_id == pid) = false := by
          simp [hpl]
          omega
        simp [hk, this]
      · simp [Bool.eq_false_iff.mpr hk]
    have h2 : List.filter (fun r =>
        r.plugin_id == qid && r.param_index == idx) [toParamRow pid p] = [] := by
      have : (pid == qid) = false := by
        simp
        omega
      simp [toParamRow, this]
    rw [h1, h2, List.append_nil]

/-- The upsert never touches the parameter table. -/
theorem rowsFor_upsertPlugin (db : DB) (path name : JSStr) (qid idx : Nat) :
    rowsFor (upsertPlugin db path name).1 qid idx = rowsFor db qid idx := by
  rw [upsertPlugin]
  cases db.plugins.find? (fun r => r.path == path) <;> rfl

/-- C4 (amended): a successful re-scan upserts the newly parsed set keyed by
(plugin, ordinal): for each ordinal present in the new set the stored row
becomes the last parsed record with that ordinal, but previously stored rows
whose ordinal is absent from the new set are retained, not removed; rows of
other plugins are untouched, and (plugin, ordinal) uniqueness is
preserved. -/
theorem savePlugin_upsert_by_key (db : DB) (path name : JSStr)
    (ps : List ScanParam) (mtime now : Nat)
    (hstale : ¬((upsertPlugin db path name).2.2 ≠ 0 ∧
      (upsertPlugin db path name).2.2 ≥ mtime)) :
    (savePlugin db path name ps mtime now).2 = true ∧
      (∀ idx, rowsFor (savePlugin db path name ps mtime now).1
          (upsertPlugin db path name).2.1 idx =
        (match lastNew ps idx with
          | some p => [toParamRow (upsertPlugin db path name).2.1 p]
          | none => rowsFor db (upsertPlugin db path name).2.1 idx)) ∧
      (∀ qid idx, qid ≠ (upsertPlugin db path name).2.1 →
        rowsFor (savePlugin db path name ps mtime now).1 qid idx =
          rowsFor db qid idx) ∧
      (∀ idx, (rowsFor db (upsertPlugin db path name).2.1 idx).length ≤ 1 →
        (rowsFor (savePlugin db path name ps mtime now).1
          (upsertPlugin db path name).2.1 idx).length ≤ 1) := by
  have hsave : savePlugin db path name ps mtime now =
      ({ (ps.foldl (insertOrReplaceParam (upsertPlugin db path name).2.1)
          (upsertPlugin db path name).1) with
        plugins := (ps.foldl (insertOrReplaceParam
            (upsertPlugin db path name).2.1)
            (upsertPlugin db path name).1).plugins.map fun r =>
          if r.id == (upsertPlugin db path name).2.1 then
            { r with last_scanned := now } else r }, true) := by
    rw [savePlugin, if_neg hstale]
  have hrows : ∀ qid idx,
      rowsFor (savePlugin db path name ps mtime now).1 qid idx =
        rowsFor (ps.foldl (insertOrReplaceParam
          (upsertPlugin db path name).2.1)
          (upsertPlugin db path name).1) qid idx := by
    intro qid idx
    rw [hsave]
    rfl
  refine ⟨by rw [hsave], ?_, ?_, ?_⟩
  · intro idx
    rw [hrows, rowsFor_foldl]
    cases lastNew ps idx with
    | some q => rfl
    | none => exact rowsFor_upsertPlugin db path name _ idx
  · intro qid idx hq
    rw [hrows, rowsFor_foldl_other _ _ hq, rowsFor_upsertPlugin]
  · intro idx hlen
    rw [hrows, rowsFor_foldl]
    cases lastNew ps idx with
    | some q => simp
    | none =>
      rw [rowsFor_upsertPlugin]
      exact hlen

/-- Witness for C4 on `dbB`: re-scanning with a new set containing only
ordinal 0 leaves the old row at ordinal 1 exactly as it was. -/
theorem savePlugin_upsert_by_key_witness :
    (¬((upsertPlugin dbB (js "/p/A.vst3") (js "A.vst3")).2.2 ≠ 0 ∧
        (upsertPlugin dbB (js "/p/A.vst3") (js "A.vst3")).2.2 ≥ 5)) ∧
      rowsFor (savePlugin dbB (js "/p/A.vst3") (js "A.vst3")
          [⟨0, js "Gain", some (js "5 to 6"), none, none⟩] 5 9).1
        (upsertPlugin dbB (js "/p/A.vst3") (js "A.vst3")).2.1 1 =
        rowsFor dbB (upsertPlugin dbB (js "/p/A.vst3") (js "A.vst3")).2.1 1 := by
  refine ⟨by decide, ?_⟩
  have h := (savePlugin_upsert_by_key dbB (js "/p/A.vst3") (js "A.vst3")
    [⟨0, js "Gain", some (js "5 to 6"), none, none⟩] 5 9 (by decide)).2.1 1
  rw [show lastNew [(⟨0, js "Gain", some (js "5 to 6"), none, none⟩ :
    ScanParam)] 1 = none from rfl] at h
  exact h

/-- Counterexample to C4 as stated: after a successful re-scan whose new set
contains only ordinal 0, the previously stored row at ordinal 1 is still in
the parameter table — absent ordinals are not removed. -/
theorem rescan_keeps_stale_rows :
    (savePlugin dbB (js "/p/A.vst3") (js "A.vst3")
        [⟨0, js "Gain", some (js "5 to 6"), none, none⟩] 5 9).2 = true ∧
      ∃ r ∈ (savePlugin dbB (js "/p/A.vst3") (js "A.vst3")
          [⟨0, js "Gain", some (js "5 to 6"), none, none⟩] 5 9).1.params,
        r.plugin_id = 1 ∧ r.param_index = 1 := by
  decide

/-! ### Claim C9 -/

/-- Success of a two-step `Except` sequence. -/
theorem exceptOk_do {α β γ : Type} (x : Except Unit α) (y : Except Unit β)
    (f : α → β → γ) :
    exceptOk (do
      let a ← x
      let b ← y
      .ok (f a b)) = (exceptOk x && exceptOk y) := by
  cases x <;> cases y <;> rfl

/-- C9 (amended): discovery has no error handling — it succeeds exactly when
every non-bundle directory of the walk is readable; a single unreadable
directory makes the whole walk throw, so the offending subtree is *not*
skipped and no partial result is returned (bundle directories themselves are
never read, and nonexistent roots are filtered out by the caller). -/
theorem findPlugins_ok_iff_clean :
    ∀ (node : FsNode) (p : JSStr),
      exceptOk (findPlugins p node) = walkClean node
  | .file, _ => by
    simp [findPlugins, walkClean, exceptOk]
  | .dir false entries, _ => by
    simp [findPlugins, walkClean, exceptOk]
  | .dir true [], _ => by
    simp [findPlugins, walkClean, exceptOk]
  | .dir true ((name, sub) :: rest), p => by
    rw [findPlugins, walkClean]
    by_cases hdir : isDirNode sub = true
    · by_cases hbn : bundleName name = true
      · rw [if_pos hdir, if_pos hdir, if_pos hbn, if_pos hbn, exceptOk_do,
          findPlugins_ok_iff_clean (.dir true rest) p]
        rfl
      · rw [if_pos hdir, if_pos hdir, if_neg hbn, if_neg hbn, exceptOk_do,
          findPlugins_ok_iff_clean sub (p ++ '/' :: name),
          findPlugins_ok_iff_clean (.dir true rest) p]
    · rw [if_neg hdir, if_neg hdir, exceptOk_do,
        findPlugins_ok_iff_clean (.dir true rest) p]
      rfl
  termination_by node _ => sizeOf node
  decreasing_by
    all_goals simp_wf
    all_goals omega

/-- Counterexample to C9 as stated: with an unreadable subdirectory next to
a readable bundle, discovery returns the error — it does not skip the
offending subtree and does not return the sibling bundle. -/
theorem discovery_aborts_on_unreadable :
    findPlugins (js "/r") treeA = .error () ∧
      walkClean treeA = false ∧
      bundleName (js "B.vst3") = true := by
  have h1 : bundleName (js "locked") = false := by decide
  have h2 : bundleName (js "B.vst3") = true := by decide
  refine ⟨?_, ?_, h2⟩
  · rw [treeA, findPlugins]
    simp only [h1, findPlugins]
    rfl
  · rw [treeA, walkClean]
    simp [h1, walkClean, isDirNode]

end Plugalyzer
